import Mathlib

/-!
# Verification of `encrypt-decrypt` and `split-join`

A shallow embedding of the two command-line tools of the repository:

* `encrypt-decrypt/main.go`: `deriveKey`, `encryptFile`, `decryptFile`;
* `split-join/main.go`: `parseSize`, `splitFile`, `joinFiles`.

Byte slices are lists of natural numbers (a byte is a number below 256), Go
strings that hold text (paths, the `--size` argument) are lists of characters,
and the passphrase is the list of the bytes of its Go string.  The library
routines the tools call are embedded from their published algorithms:
SHA-256 (FIPS 180-4), HMAC (RFC 2104), PBKDF2 (RFC 8018), AES (FIPS 197) and
GCM (NIST SP 800-38D), with the argument checks of the Go packages
`crypto/aes`, `crypto/cipher`, `crypto/hmac` and `golang.org/x/crypto/pbkdf2`.
The file system and the random source are explicit state.
-/

namespace Tools

/-- A byte slice. -/
abbrev Bytes := List Nat

/-- A Go string holding text. -/
abbrev Str := List Char

/-! ## Words and blocks -/

/-- Truncation to an unsigned 32-bit word. -/
def w32 (x : Nat) : Nat := x % 4294967296

/-- Rotate a 32-bit word right by `n` bits. -/
def rotr32 (x n : Nat) : Nat := w32 ((x >>> n) ||| (x <<< (32 - n)))

/-- The `n` bytes of `x`, most significant first. -/
def beBytes (n x : Nat) : Bytes := (List.range n).map (fun i => (x >>> (8 * (n - 1 - i))) % 256)

/-- The number whose big-endian bytes are `b`. -/
def beNat (b : Bytes) : Nat := b.foldl (fun acc x => acc * 256 + x) 0

/-- Bytewise exclusive or, as long as the shorter argument. -/
def xorBytes (a b : Bytes) : Bytes := List.zipWith (fun x y => x ^^^ y) a b

/-! ## SHA-256 -/

def sha256K : List Nat :=
  [0x428a2f98, 0x71374491, 0xb5c0fbcf, 0xe9b5dba5, 0x3956c25b, 0x59f111f1, 0x923f82a4, 0xab1c5ed5,
   0xd807aa98, 0x12835b01, 0x243185be, 0x550c7dc3, 0x72be5d74, 0x80deb1fe, 0x9bdc06a7, 0xc19bf174,
   0xe49b69c1, 0xefbe4786, 0x0fc19dc6, 0x240ca1cc, 0x2de92c6f, 0x4a7484aa, 0x5cb0a9dc, 0x76f988da,
   0x983e5152, 0xa831c66d, 0xb00327c8, 0xbf597fc7, 0xc6e00bf3, 0xd5a79147, 0x06ca6351, 0x14292967,
   0x27b70a85, 0x2e1b2138, 0x4d2c6dfc, 0x53380d13, 0x650a7354, 0x766a0abb, 0x81c2c92e, 0x92722c85,
   0xa2bfe8a1, 0xa81a664b, 0xc24b8b70, 0xc76c51a3, 0xd192e819, 0xd6990624, 0xf40e3585, 0x106aa070,
   0x19a4c116, 0x1e376c08, 0x2748774c, 0x34b0bcb5, 0x391c0cb3, 0x4ed8aa4a, 0x5b9cca4f, 0x682e6ff3,
   0x748f82ee, 0x78a5636f, 0x84c87814, 0x8cc70208, 0x90befffa, 0xa4506ceb, 0xbef9a3f7, 0xc67178f2]

def sha256Init : List Nat :=
  [0x6a09e667, 0xbb67ae85, 0x3c6ef372, 0xa54ff53a, 0x510e527f, 0x9b05688c, 0x1f83d9ab, 0x5be0cd19]

def sha256Ch (x y z : Nat) : Nat := (x &&& y) ^^^ ((x ^^^ 0xffffffff) &&& z)

def sha256Maj (x y z : Nat) : Nat := (x &&& y) ^^^ (x &&& z) ^^^ (y &&& z)

def bigSigma0 (x : Nat) : Nat := rotr32 x 2 ^^^ rotr32 x 13 ^^^ rotr32 x 22

def bigSigma1 (x : Nat) : Nat := rotr32 x 6 ^^^ rotr32 x 11 ^^^ rotr32 x 25

def smallSigma0 (x : Nat) : Nat := rotr32 x 7 ^^^ rotr32 x 18 ^^^ (x >>> 3)

def smallSigma1 (x : Nat) : Nat := rotr32 x 17 ^^^ rotr32 x 19 ^^^ (x >>> 10)

/-- Message padding: a `0x80` byte, zeros up to 56 modulo 64, and the bit
length on eight bytes. -/
def sha256Pad (msg : Bytes) : Bytes :=
  msg ++ [0x80] ++ List.replicate ((119 - msg.length % 64) % 64) 0 ++ beBytes 8 (8 * msg.length)

/-- The 64 words of the message schedule of one 64-byte block. -/
def sha256Schedule (block : Bytes) : List Nat :=
  (List.range 48).foldl
    (fun w t =>
      w ++ [w32 (smallSigma1 (w.getD (t + 14) 0) + w.getD (t + 9) 0
                  + smallSigma0 (w.getD (t + 1) 0) + w.getD t 0)])
    ((List.range 16).map (fun i => beNat ((block.drop (4 * i)).take 4)))

/-- One round of the compression function on the working variables `a..h`. -/
def sha256Round (st : List Nat) (kw : Nat × Nat) : List Nat :=
  match st with
  | [a, b, c, d, e, f, g, h] =>
    [w32 (h + bigSigma1 e + sha256Ch e f g + kw.1 + kw.2 + (bigSigma0 a + sha256Maj a b c)),
     a, b, c,
     w32 (d + (h + bigSigma1 e + sha256Ch e f g + kw.1 + kw.2)),
     e, f, g]
  | _ => st

def sha256Compress (h : List Nat) (block : Bytes) : List Nat :=
  List.zipWith (fun x y => w32 (x + y)) h
    ((sha256K.zip (sha256Schedule block)).foldl sha256Round h)

/-- The SHA-256 digest of a message, 32 bytes. -/
def sha256 (msg : Bytes) : Bytes :=
  (List.range 32).map (fun i =>
    (((List.range ((sha256Pad msg).length / 64)).foldl
        (fun h i => sha256Compress h (((sha256Pad msg).drop (64 * i)).take 64))
        sha256Init).getD (i / 4) 0 >>> (8 * (3 - i % 4))) % 256)

/-! ## HMAC-SHA-256 and PBKDF2 -/

/-- The key block of `hmac.New`: a key longer than the 64-byte block of the
hash is replaced by its digest, and the key is padded with zero bytes to 64. -/
def hmacKey (key : Bytes) : Bytes :=
  (if key.length > 64 then sha256 key else key)
    ++ List.replicate (64 - (if key.length > 64 then sha256 key else key).length) 0

/-- HMAC over an already prepared key block. -/
def hmacBlock (k msg : Bytes) : Bytes :=
  sha256 (k.map (fun x => x ^^^ 0x5c) ++ sha256 (k.map (fun x => x ^^^ 0x36) ++ msg))

def hmacSha256 (key msg : Bytes) : Bytes := hmacBlock (hmacKey key) msg

/-- One step of the inner loop of `pbkdf2.Key`: `U = PRF(U)`, `T ^= U`;
the pair is `(T, U)`. -/
def pbkdf2Step (password : Bytes) (tu : Bytes × Bytes) : Bytes × Bytes :=
  (xorBytes tu.1 (hmacSha256 password tu.2), hmacSha256 password tu.2)

/-- The block `T_block = U_1 ^ U_2 ^ ... ^ U_iter` of `pbkdf2.Key`. -/
def pbkdf2Block (password salt : Bytes) (iter block : Nat) : Bytes :=
  ((pbkdf2Step password)^[iter - 1]
    (hmacSha256 password (salt ++ beBytes 4 block),
     hmacSha256 password (salt ++ beBytes 4 block))).1

/-- The function `pbkdf2.Key(password, salt, iter, keyLen, sha256.New)`: the
first `keyLen` bytes of the blocks `T_1 ‖ T_2 ‖ ...`, of which there are
enough to cover them. -/
def pbkdf2Key (password salt : Bytes) (iter keyLen : Nat) : Bytes :=
  (List.range keyLen).map (fun i =>
    (((List.range ((keyLen + 32 - 1) / 32)).map
      (fun b => pbkdf2Block password salt iter (b + 1))).flatten).getD i 0)

/-! ## AES -/

def aesSbox : List Nat :=
  [0x63, 0x7c, 0x77, 0x7b, 0xf2, 0x6b, 0x6f, 0xc5, 0x30, 0x01, 0x67, 0x2b, 0xfe, 0xd7, 0xab, 0x76,
   0xca, 0x82, 0xc9, 0x7d, 0xfa, 0x59, 0x47, 0xf0, 0xad, 0xd4, 0xa2, 0xaf, 0x9c, 0xa4, 0x72, 0xc0,
   0xb7, 0xfd, 0x93, 0x26, 0x36, 0x3f, 0xf7, 0xcc, 0x34, 0xa5, 0xe5, 0xf1, 0x71, 0xd8, 0x31, 0x15,
   0x04, 0xc7, 0x23, 0xc3, 0x18, 0x96, 0x05, 0x9a, 0x07, 0x12, 0x80, 0xe2, 0xeb, 0x27, 0xb2, 0x75,
   0x09, 0x83, 0x2c, 0x1a, 0x1b, 0x6e, 0x5a, 0xa0, 0x52, 0x3b, 0xd6, 0xb3, 0x29, 0xe3, 0x2f, 0x84,
   0x53, 0xd1, 0x00, 0xed, 0x20, 0xfc, 0xb1, 0x5b, 0x6a, 0xcb, 0xbe, 0x39, 0x4a, 0x4c, 0x58, 0xcf,
   0xd0, 0xef, 0xaa, 0xfb, 0x43, 0x4d, 0x33, 0x85, 0x45, 0xf9, 0x02, 0x7f, 0x50, 0x3c, 0x9f, 0xa8,
   0x51, 0xa3, 0x40, 0x8f, 0x92, 0x9d, 0x38, 0xf5, 0xbc, 0xb6, 0xda, 0x21, 0x10, 0xff, 0xf3, 0xd2,
   0xcd, 0x0c, 0x13, 0xec, 0x5f, 0x97, 0x44, 0x17, 0xc4, 0xa7, 0x7e, 0x3d, 0x64, 0x5d, 0x19, 0x73,
   0x60, 0x81, 0x4f, 0xdc, 0x22, 0x2a, 0x90, 0x88, 0x46, 0xee, 0xb8, 0x14, 0xde, 0x5e, 0x0b, 0xdb,
   0xe0, 0x32, 0x3a, 0x0a, 0x49, 0x06, 0x24, 0x5c, 0xc2, 0xd3, 0xac, 0x62, 0x91, 0x95, 0xe4, 0x79,
   0xe7, 0xc8, 0x37, 0x6d, 0x8d, 0xd5, 0x4e, 0xa9, 0x6c, 0x56, 0xf4, 0xea, 0x65, 0x7a, 0xae, 0x08,
   0xba, 0x78, 0x25, 0x2e, 0x1c, 0xa6, 0xb4, 0xc6, 0xe8, 0xdd, 0x74, 0x1f, 0x4b, 0xbd, 0x8b, 0x8a,
   0x70, 0x3e, 0xb5, 0x66, 0x48, 0x03, 0xf6, 0x0e, 0x61, 0x35, 0x57, 0xb9, 0x86, 0xc1, 0x1d, 0x9e,
   0xe1, 0xf8, 0x98, 0x11, 0x69, 0xd9, 0x8e, 0x94, 0x9b, 0x1e, 0x87, 0xe9, 0xce, 0x55, 0x28, 0xdf,
   0x8c, 0xa1, 0x89, 0x0d, 0xbf, 0xe6, 0x42, 0x68, 0x41, 0x99, 0x2d, 0x0f, 0xb0, 0x54, 0xbb, 0x16]

def subByte (x : Nat) : Nat := aesSbox.getD x 0

/-- The S-box applied to the four bytes of a word. -/
def subWord (w : Nat) : Nat := beNat ((beBytes 4 w).map subByte)

/-- Rotate a word left by one byte. -/
def rotWord (w : Nat) : Nat := w32 ((w <<< 8) ||| (w >>> 24))

/-- Multiplication by `x` in GF(2^8) modulo `x^8 + x^4 + x^3 + x + 1`. -/
def xtime (a : Nat) : Nat := ((a <<< 1) ^^^ (if a &&& 0x80 = 0 then 0 else 0x1b)) % 256

def aesRcon : List Nat := [0x01, 0x02, 0x04, 0x08, 0x10, 0x20, 0x40, 0x80, 0x1b, 0x36]

/-- The key schedule: `4 * (nk + 7)` words from a key of `nk` words. -/
def aesExpandKey (key : Bytes) : List Nat :=
  (List.range (4 * (key.length / 4 + 7) - key.length / 4)).foldl
    (fun w t =>
      w ++ [w.getD t 0 ^^^
        (if (t + key.length / 4) % (key.length / 4) = 0 then
           subWord (rotWord (w.getD (t + key.length / 4 - 1) 0))
             ^^^ (aesRcon.getD ((t + key.length / 4) / (key.length / 4) - 1) 0 <<< 24)
         else if key.length / 4 > 6 ∧ (t + key.length / 4) % (key.length / 4) = 4 then
           subWord (w.getD (t + key.length / 4 - 1) 0)
         else w.getD (t + key.length / 4 - 1) 0)])
    ((List.range (key.length / 4)).map (fun i => beNat ((key.drop (4 * i)).take 4)))

/-- The 16 bytes of round key `r`. -/
def aesRoundKey (w : List Nat) (r : Nat) : Bytes :=
  (List.range 16).map (fun i => (beBytes 4 (w.getD (4 * r + i / 4) 0)).getD (i % 4) 0)

def addRoundKey (w : List Nat) (r : Nat) (s : Bytes) : Bytes :=
  (List.range 16).map (fun i => s.getD i 0 ^^^ (aesRoundKey w r).getD i 0)

def subBytes (s : Bytes) : Bytes := (List.range 16).map (fun i => subByte (s.getD i 0))

/-- Row `r` of the state (bytes `r`, `r + 4`, `r + 8`, `r + 12`) rotates left
by `r` columns. -/
def shiftRows (s : Bytes) : Bytes :=
  (List.range 16).map (fun i => s.getD (i % 4 + 4 * ((i / 4 + i % 4) % 4)) 0)

/-- Each column is multiplied by the fixed polynomial `{03}x^3 + {01}x^2 + {01}x + {02}`. -/
def mixColumns (s : Bytes) : Bytes :=
  (List.range 16).map (fun i =>
    xtime (s.getD (4 * (i / 4) + i % 4) 0)
      ^^^ (xtime (s.getD (4 * (i / 4) + (i + 1) % 4) 0) ^^^ s.getD (4 * (i / 4) + (i + 1) % 4) 0)
      ^^^ s.getD (4 * (i / 4) + (i + 2) % 4) 0
      ^^^ s.getD (4 * (i / 4) + (i + 3) % 4) 0)

/-- Encryption of one 16-byte block under an expanded key with `nr` rounds. -/
def aesEncryptBlock (w : List Nat) (nr : Nat) (block : Bytes) : Bytes :=
  addRoundKey w nr (shiftRows (subBytes
    ((List.range (nr - 1)).foldl
      (fun s r => addRoundKey w (r + 1) (mixColumns (shiftRows (subBytes s))))
      (addRoundKey w 0 block))))

/-! ## AES as a `cipher.Block`, and GCM -/

/-- Errors and panics of the two programs. -/
inductive Error where
  /-- An `*fs.PathError` of the `os` package: the operation, the path, and
  whether `os.IsNotExist` holds of it. -/
  | pathError (op : Str) (path : Str) (notExist : Bool)
  /-- The error of a failed `rand.Read`. -/
  | randomness
  /-- The value `aes.KeySizeError(n)`. -/
  | keySizeError (n : Nat)
  /-- The error of `cipher.NewGCM` on a block size other than 16. -/
  | gcmBlockSize
  /-- The value `errors.New("invalid encrypted file")`. -/
  | invalidEncryptedFile
  /-- The value `errOpen` of `crypto/cipher`, "cipher: message authentication failed". -/
  | errOpen
  /-- A `*strconv.NumError` of `ParseInt`: the string parsed, and whether the
  error is `ErrRange` (otherwise `ErrSyntax`). -/
  | numError (num : Str) (outOfRange : Bool)
  /-- A run-time panic, with its message. -/
  | panicked (msg : String)
  deriving DecidableEq, Repr

/-- An AES block cipher: the expanded key and the number of rounds. -/
structure AesCipher where
  w : List Nat
  nr : Nat
  deriving DecidableEq, Repr

/-- The function `aes.NewCipher`: keys of 16, 24 or 32 bytes only. -/
def aesNewCipher (key : Bytes) : Except Error AesCipher :=
  if key.length = 16 ∨ key.length = 24 ∨ key.length = 32 then
    .ok { w := aesExpandKey key, nr := key.length / 4 + 6 }
  else .error (.keySizeError key.length)

/-- The method `Encrypt` of the AES block. -/
def AesCipher.encrypt (c : AesCipher) (block : Bytes) : Bytes := aesEncryptBlock c.w c.nr block

/-- The method `BlockSize` of the AES block. -/
def AesCipher.blockSize (_c : AesCipher) : Nat := 16

def gcmBlockSize : Nat := 16

def gcmTagSize : Nat := 16

def gcmStandardNonceSize : Nat := 12

/-- A GCM instance as `cipher.NewGCM` builds it: standard nonce and tag sizes. -/
structure GCM where
  cipher : AesCipher
  nonceSize : Nat
  tagSize : Nat
  deriving DecidableEq, Repr

/-- The function `cipher.NewGCM`. -/
def cipherNewGCM (c : AesCipher) : Except Error GCM :=
  if c.blockSize ≠ gcmBlockSize then .error .gcmBlockSize
  else .ok { cipher := c, nonceSize := gcmStandardNonceSize, tagSize := gcmTagSize }

/-- The reduction constant of GF(2^128) in the bit order of GCM. -/
def gcmR : Nat := 0xe1 <<< 120

/-- One step of the multiplication: bit `i` of `x`, counted from the most
significant, selects the current multiple `zv.2` of `y`, which is then
multiplied by the indeterminate. -/
def gfMulStep (x : Nat) (zv : Nat × Nat) (i : Nat) : Nat × Nat :=
  (if x.testBit (127 - i) then zv.1 ^^^ zv.2 else zv.1,
   if zv.2.testBit 0 then (zv.2 >>> 1) ^^^ gcmR else zv.2 >>> 1)

/-- Multiplication of two blocks in GF(2^128). -/
def gfMul (x y : Nat) : Nat := ((List.range 128).foldl (gfMulStep x) (0, y)).1

/-- The function GHASH over a byte string whose length is a multiple of 16. -/
def ghash (h : Nat) (data : Bytes) : Nat :=
  (List.range (data.length / 16)).foldl
    (fun x i => gfMul (x ^^^ beNat ((data.drop (16 * i)).take 16)) h) 0

/-- Zero padding to a multiple of 16 bytes. -/
def gcmPad (b : Bytes) : Bytes := b ++ List.replicate ((16 - b.length % 16) % 16) 0

/-- The counter block after `j` increments of the initial block
`nonce ‖ 0 0 0 1` (12-byte nonce); the counter is the last 32 bits. -/
def gcmCounter (nonce : Bytes) (j : Nat) : Bytes := nonce ++ beBytes 4 ((1 + j) % 4294967296)

/-- The key stream for `n` bytes: the encryptions of the counter blocks from
the second on. -/
def gcmStream (g : GCM) (nonce : Bytes) (n : Nat) : Bytes :=
  ((List.range ((n + 15) / 16)).map (fun j => g.cipher.encrypt (gcmCounter nonce (j + 1)))).flatten

/-- The method `counterCrypt`: encryption and decryption in counter mode. -/
def GCM.counterCrypt (g : GCM) (nonce data : Bytes) : Bytes :=
  xorBytes data (gcmStream g nonce data.length)

/-- The method `auth`: the tag of a ciphertext and additional data. -/
def GCM.auth (g : GCM) (nonce ciphertext data : Bytes) : Bytes :=
  beBytes 16
    (ghash (beNat (g.cipher.encrypt (List.replicate 16 0)))
        (gcmPad data ++ gcmPad ciphertext
          ++ beBytes 8 (8 * data.length) ++ beBytes 8 (8 * ciphertext.length))
      ^^^ beNat (g.cipher.encrypt (gcmCounter nonce 0)))

/-- The largest plaintext `Seal` accepts: `((1 << 32) - 2)` blocks. -/
def gcmMaxPlaintext : Nat := (2 ^ 32 - 2) * 16

/-- The method `Seal(nil, nonce, plaintext, data)`. -/
def GCM.seal (g : GCM) (nonce plaintext data : Bytes) : Except Error Bytes :=
  if nonce.length ≠ g.nonceSize then
    .error (.panicked "crypto/cipher: incorrect nonce length given to GCM")
  else if plaintext.length > gcmMaxPlaintext then
    .error (.panicked "crypto/cipher: message too large for GCM")
  else
    .ok (g.counterCrypt nonce plaintext ++ g.auth nonce (g.counterCrypt nonce plaintext) data)

/-- The method `Open(nil, nonce, ciphertext, data)`. -/
def GCM.open (g : GCM) (nonce ciphertext data : Bytes) : Except Error Bytes :=
  if nonce.length ≠ g.nonceSize then
    .error (.panicked "crypto/cipher: incorrect nonce length given to GCM")
  else if g.tagSize < 12 then
    .error (.panicked "crypto/cipher: incorrect GCM tag size")
  else if ciphertext.length < g.tagSize then .error .errOpen
  else if ciphertext.length > gcmMaxPlaintext + g.tagSize then .error .errOpen
  else if g.auth nonce (ciphertext.take (ciphertext.length - g.tagSize)) data
      ≠ ciphertext.drop (ciphertext.length - g.tagSize) then .error .errOpen
  else .ok (g.counterCrypt nonce (ciphertext.take (ciphertext.length - g.tagSize)))

/-! ## The environment: files, random bytes, and the calls made -/

/-- A call of a library routine, as a run records it. -/
inductive Call where
  | readFile (path : Str)
  | writeFile (path : Str)
  | randRead (n : Nat)
  | pbkdf2Key
  | aesNewCipher
  | cipherNewGCM
  | gcmSeal
  | gcmOpen
  | openFile (path : Str)
  | readHandle (path : Str)
  | createFile (path : Str)
  | writeHandle (path : Str)
  deriving DecidableEq, Repr

/-- The file system: the content of each regular file, the paths that cannot
be opened for reading or for writing, and for each path the number of bytes
after which a write to it fails (no entry: every write succeeds). -/
structure FS where
  files : Str → Option Bytes
  noRead : Str → Bool
  noWrite : Str → Bool
  quota : Str → Option Nat

/-- The state a run acts on: the file system, the bytes the random source
will deliver, and the log of the library calls made so far. -/
structure World where
  fs : FS
  entropy : Bytes
  log : List Call

/-- Record a call in the log. -/
def World.call (w : World) (c : Call) : World := { w with log := w.log ++ [c] }

/-- The file system with `path` holding `data`. -/
def FS.put (fs : FS) (path : Str) (data : Bytes) : FS :=
  { fs with files := Function.update fs.files path (some data) }

/-- The function `os.ReadFile`. -/
def osReadFile (path : Str) (w : World) : Except Error Bytes × World :=
  if w.fs.noRead path then
    (.error (.pathError "open".toList path false), w.call (.readFile path))
  else
    match w.fs.files path with
    | none => (.error (.pathError "open".toList path true), w.call (.readFile path))
    | some data => (.ok data, w.call (.readFile path))

/-- The function `os.WriteFile`: the file is created or truncated, then
written; a write that fails leaves the bytes written before the failure. -/
def osWriteFile (path : Str) (data : Bytes) (w : World) : Except Error Unit × World :=
  if w.fs.noWrite path then
    (.error (.pathError "open".toList path false), w.call (.writeFile path))
  else
    match w.fs.quota path with
    | none =>
      (.ok (), { fs := w.fs.put path data, entropy := w.entropy,
                 log := w.log ++ [.writeFile path] })
    | some k =>
      if data.length > k then
        (.error (.pathError "write".toList path false),
          { fs := w.fs.put path (data.take k), entropy := w.entropy,
            log := w.log ++ [.writeFile path] })
      else
        (.ok (), { fs := w.fs.put path data, entropy := w.entropy,
                   log := w.log ++ [.writeFile path] })

/-- The function `rand.Read` on a buffer of `n` bytes: the buffer is filled
from the random source, or the call fails when the source cannot deliver. -/
def randRead (n : Nat) (w : World) : Except Error Bytes × World :=
  if w.entropy.length < n then (.error .randomness, w.call (.randRead n))
  else
    (.ok (w.entropy.take n),
      { fs := w.fs, entropy := w.entropy.drop n, log := w.log ++ [.randRead n] })

/-! ## Go strings -/

/-- The function `strings.HasSuffix`. -/
def hasSuffix (s suffix : Str) : Bool :=
  decide (suffix.length ≤ s.length) && decide (s.drop (s.length - suffix.length) = suffix)

/-- The function `strings.TrimSuffix`. -/
def trimSuffix (s suffix : Str) : Str :=
  if hasSuffix s suffix then s.take (s.length - suffix.length) else s

/-! ## `encrypt-decrypt/main.go` -/

def saltSize : Nat := 16

def nonceSize : Nat := 12

def keySize : Nat := 32

def iter : Nat := 100000

def deriveKey (password : Bytes) (salt : Bytes) : Bytes :=
  pbkdf2Key password salt iter keySize

def encryptFile (password : Bytes) (filePath : Str) (w : World) : Except Error Unit × World :=
  match osReadFile filePath w with
  | (.error err, w) => (.error err, w)
  | (.ok plain, w) =>
    match randRead saltSize w with
    | (.error err, w) => (.error err, w)
    | (.ok salt, w) =>
      match randRead nonceSize w with
      | (.error err, w) => (.error err, w)
      | (.ok nonce, w) =>
        match aesNewCipher (deriveKey password salt) with
        | .error err => (.error err, (w.call .pbkdf2Key).call .aesNewCipher)
        | .ok block =>
          match cipherNewGCM block with
          | .error err =>
            (.error err, ((w.call .pbkdf2Key).call .aesNewCipher).call .cipherNewGCM)
          | .ok gcm =>
            match gcm.seal nonce plain [] with
            | .error err =>
              (.error err,
                (((w.call .pbkdf2Key).call .aesNewCipher).call .cipherNewGCM).call .gcmSeal)
            | .ok ciphertext =>
              osWriteFile (filePath ++ ".enc".toList) (salt ++ nonce ++ ciphertext)
                ((((w.call .pbkdf2Key).call .aesNewCipher).call .cipherNewGCM).call .gcmSeal)

def decryptFile (password : Bytes) (filePath : Str) (w : World) : Except Error Unit × World :=
  match osReadFile filePath w with
  | (.error err, w) => (.error err, w)
  | (.ok data, w) =>
    if data.length < saltSize + nonceSize then (.error .invalidEncryptedFile, w)
    else
      match aesNewCipher (deriveKey password (data.take saltSize)) with
      | .error err => (.error err, (w.call .pbkdf2Key).call .aesNewCipher)
      | .ok block =>
        match cipherNewGCM block with
        | .error err =>
          (.error err, ((w.call .pbkdf2Key).call .aesNewCipher).call .cipherNewGCM)
        | .ok gcm =>
          match gcm.open ((data.take (saltSize + nonceSize)).drop saltSize)
              (data.drop (saltSize + nonceSize)) [] with
          | .error err =>
            (.error err,
              (((w.call .pbkdf2Key).call .aesNewCipher).call .cipherNewGCM).call .gcmOpen)
          | .ok plain =>
            osWriteFile (trimSuffix filePath ".enc".toList) plain
              ((((w.call .pbkdf2Key).call .aesNewCipher).call .cipherNewGCM).call .gcmOpen)

/-! ## `split-join/main.go`

Output to the terminal is not modelled. The two loops of the program take a
bound on the number of their iterations and return `none` when it is reached. -/

/-- The function `os.Open`; the handle is the path, read at an offset the
caller keeps. -/
def osOpen (path : Str) (w : World) : Except Error Unit × World :=
  if w.fs.noRead path then
    (.error (.pathError "open".toList path false), w.call (.openFile path))
  else
    match w.fs.files path with
    | none => (.error (.pathError "open".toList path true), w.call (.openFile path))
    | some _ => (.ok (), w.call (.openFile path))

/-- The method `Read` of a file opened at `path`, on a buffer of `n` bytes and
at `offset`: the bytes read, as many as the buffer holds while the file has
them; none at the end of the file, where Go reports `io.EOF`. -/
def fileRead (path : Str) (offset n : Nat) (w : World) : Except Error Bytes × World :=
  match w.fs.files path with
  | none => (.error (.pathError "read".toList path false), w.call (.readHandle path))
  | some data => (.ok ((data.drop offset).take n), w.call (.readHandle path))

/-- The function `os.Create`: the file is created or truncated. -/
def osCreate (path : Str) (w : World) : Except Error Unit × World :=
  if w.fs.noWrite path then
    (.error (.pathError "open".toList path false), w.call (.createFile path))
  else
    (.ok (), { fs := w.fs.put path [], entropy := w.entropy,
               log := w.log ++ [.createFile path] })

/-- The method `Write` of the file created at `path`, whose offset is the end
of what has been written to it: the bytes are appended. -/
def fileWrite (path : Str) (data : Bytes) (w : World) : Except Error Unit × World :=
  match w.fs.quota path with
  | none =>
    (.ok (), { fs := w.fs.put path (((w.fs.files path).getD []) ++ data),
               entropy := w.entropy, log := w.log ++ [.writeHandle path] })
  | some k =>
    if (((w.fs.files path).getD []) ++ data).length > k then
      (.error (.pathError "write".toList path false),
        { fs := w.fs.put path ((((w.fs.files path).getD []) ++ data).take k),
          entropy := w.entropy, log := w.log ++ [.writeHandle path] })
    else
      (.ok (), { fs := w.fs.put path (((w.fs.files path).getD []) ++ data),
                 entropy := w.entropy, log := w.log ++ [.writeHandle path] })

/-- The function `os.IsNotExist`. -/
def osIsNotExist (err : Error) : Bool :=
  match err with
  | .pathError _ _ notExist => notExist
  | _ => false

/-- The digits of `n`, least significant first. -/
def itoaRev : Nat → Nat → Str
  | 0, _ => []
  | fuel + 1, n =>
    if n < 10 then [Char.ofNat (48 + n)]
    else Char.ofNat (48 + n % 10) :: itoaRev fuel (n / 10)

/-- The verb `%d` of `fmt.Sprintf` on a number that is not negative. -/
def itoa (n : Nat) : Str := (itoaRev (n + 1) n).reverse

/-- The loop of `filepath.Ext`, from the last character backwards: it stops
at a path separator, and returns the suffix that starts at the first dot met. -/
def extLoop : Str → Str → Str
  | [], _ => []
  | c :: rest, acc =>
    if c = '/' then [] else if c = '.' then '.' :: acc else extLoop rest (c :: acc)

/-- The function `filepath.Ext`. -/
def filepathExt (path : Str) : Str := extLoop path.reverse []

/-- The loop of `strconv.ParseUint(s, 10, 64)` over the characters of `s`, with
the value read so far; the result is the value and the error, `some true` for
`ErrRange` and `some false` for `ErrSyntax`. -/
def parseUintLoop : Str → Nat → Nat × Option Bool
  | [], n => (n, none)
  | c :: cs, n =>
    if 48 ≤ c.toNat ∧ c.toNat ≤ 57 then
      if n ≥ (2 ^ 64 - 1) / 10 + 1 then (2 ^ 64 - 1, some true)
      else if n * 10 + (c.toNat - 48) > 2 ^ 64 - 1 then (2 ^ 64 - 1, some true)
      else parseUintLoop cs (n * 10 + (c.toNat - 48))
    else (0, some false)

/-- The function `strconv.ParseUint(s, 10, 64)`. -/
def strconvParseUint (s : Str) : Nat × Option Bool :=
  if s = [] then (0, some false) else parseUintLoop s 0

/-- The function `strconv.ParseInt(s, 10, 64)`: the value and the error. -/
def strconvParseInt (s : Str) : Int × Option Error :=
  match s with
  | [] => (0, some (.numError s false))
  | c :: cs =>
    match strconvParseUint (if c = '+' ∨ c = '-' then cs else s) with
    | (_, some false) => (0, some (.numError s false))
    | (un, _) =>
      if c ≠ '-' ∧ un ≥ 2 ^ 63 then (2 ^ 63 - 1, some (.numError s true))
      else if c = '-' ∧ un > 2 ^ 63 then (-(2 ^ 63), some (.numError s true))
      else (if c = '-' then -(un : Int) else (un : Int), none)

/-- Reduction of an integer to the range of `int64`, as the arithmetic of Go
does on overflow. -/
def wrapInt64 (x : Int) : Int := (x + 2 ^ 63) % 2 ^ 64 - 2 ^ 63

/-- The map `suffixes` of `parseSize`, in the order the source lists it. -/
def suffixes : List (Str × Int) :=
  [("KB".toList, 1024), ("MB".toList, 1024 * 1024), ("GB".toList, 1024 * 1024 * 1024)]

/-- The function `parseSize`. The `range` loop visits the map in an order Go
leaves unspecified; `order` is the order of one run. -/
def parseSize (order : List (Str × Int)) (sizeStr : Str) : Int × Option Error :=
  match order with
  | [] => strconvParseInt sizeStr
  | (suffix, factor) :: rest =>
    if hasSuffix sizeStr suffix then
      (wrapInt64 ((strconvParseInt (trimSuffix sizeStr suffix)).1 * factor),
        (strconvParseInt (trimSuffix sizeStr suffix)).2)
    else parseSize rest sizeStr

/-- The loop of `splitFile`: `offset` is the position of the file handle and
`part` the number of the next part. -/
def splitLoop (inputPath : Str) (maxSize : Nat) :
    Nat → Nat → Nat → World → Option (Except Error Unit × World)
  | 0, _, _, _ => none
  | fuel + 1, offset, part, w =>
    match fileRead inputPath offset maxSize w with
    | (.error err, w) => some (.error err, w)
    | (.ok buf, w) =>
      if buf.length = 0 then some (.ok (), w)
      else
        match osWriteFile (inputPath ++ ".part".toList ++ itoa part) buf w with
        | (.error err, w) => some (.error err, w)
        | (.ok _, w) => splitLoop inputPath maxSize fuel (offset + buf.length) (part + 1) w

/-- The bound `maxAlloc` of the Go runtime on 64-bit Linux: no slice may
occupy more bytes. -/
def maxAlloc : Nat := 2 ^ 48

/-- The allocation `make([]byte, n)`, in a run whose runtime can still obtain
`avail` bytes: a length that is negative or above `maxAlloc` panics, and a
length the runtime cannot obtain ends the program with its fatal error. -/
def makeBytes (n : Int) (avail : Nat) : Except Error Unit :=
  if n < 0 ∨ n > (maxAlloc : Int) then
    .error (.panicked "runtime error: makeslice: len out of range")
  else if n.toNat > avail then .error (.panicked "fatal error: runtime: out of memory")
  else .ok ()

/-- The function `splitFile`, in a run whose runtime can still obtain `avail`
bytes of memory. -/
def splitFile (inputPath : Str) (maxSize : Int) (avail : Nat) (fuel : Nat) (w : World) :
    Option (Except Error Unit × World) :=
  match osOpen inputPath w with
  | (.error err, w) => some (.error err, w)
  | (.ok _, w) =>
    match makeBytes maxSize avail with
    | .error err => some (.error err, w)
    | .ok _ => splitLoop inputPath maxSize.toNat fuel 0 0 w

/-- The loop of `joinFiles`. -/
def joinLoop (base : Str) : Nat → Nat → World → Option (Except Error Unit × World)
  | 0, _, _ => none
  | fuel + 1, part, w =>
    match osReadFile (base ++ ".part".toList ++ itoa part) w with
    | (.error err, w) => if osIsNotExist err then some (.ok (), w) else some (.error err, w)
    | (.ok data, w) =>
      match fileWrite base data w with
      | (.error err, w) => some (.error err, w)
      | (.ok _, w) => joinLoop base fuel (part + 1) w

def joinFiles (firstPart : Str) (fuel : Nat) (w : World) :
    Option (Except Error Unit × World) :=
  match osCreate (trimSuffix firstPart (filepathExt firstPart)) w with
  | (.error err, w) => some (.error err, w)
  | (.ok _, w) => joinLoop (trimSuffix firstPart (filepathExt firstPart)) fuel 0 w

/-! ## Decimal strings -/

/-- The number a string of decimal digits denotes. -/
def decimalValue (digits : Str) : Nat := digits.foldl (fun a c => a * 10 + (c.toNat - 48)) 0

/-- A string of decimal digits, at least one. -/
def isDigits (digits : Str) : Prop := digits ≠ [] ∧ ∀ c ∈ digits, 48 ≤ c.toNat ∧ c.toNat ≤ 57

/-- The integer that an optional sign followed by decimal digits denotes. -/
def signedValue (sign digits : Str) : Int :=
  if sign = ['-'] then -(decimalValue digits : Int) else (decimalValue digits : Int)

/-! ## Chunks and parts -/

/-- The number of parts: `len` bytes in chunks of `size` bytes, rounded up. -/
def partCount (len size : Nat) : Nat := (len + size - 1) / size

/-- Chunk `i` of `data` in chunks of `size` bytes. -/
def chunk (data : Bytes) (size i : Nat) : Bytes := (data.drop (i * size)).take size

/-- The name of part `i` of the file `path`. -/
def partPath (path : Str) (i : Nat) : Str := path ++ ".part".toList ++ itoa i

/-- A file system in which no read and no write fails. -/
def FS.faultFree (fs : FS) : Prop :=
  ∀ p, fs.noRead p = false ∧ fs.noWrite p = false ∧ fs.quota p = none

/-- The file system after parts `j`, `j + 1`, ..., `j + d - 1` of `data` have
been written. -/
def putChunks (path : Str) (data : Bytes) (size : Nat) : Nat → Nat → FS → FS
  | _, 0, fs => fs
  | j, d + 1, fs =>
    putChunks path data size (j + 1) d (fs.put (partPath path j) (chunk data size j))

/-! ## Bit flips -/

/-- The byte string `data` with bit `bit` flipped: bit `bit % 8` of the byte at
offset `bit / 8`. -/
def flipBit (data : Bytes) (bit : Nat) : Bytes :=
  data.set (bit / 8) (data.getD (bit / 8) 0 ^^^ 2 ^ (bit % 8))

/-! ## Auxiliary definitions of the proofs -/

/-- The GCM instance the two programs build from a key of 32 bytes. -/
def keyGCM (key : Bytes) : GCM :=
  { cipher := { w := aesExpandKey key, nr := key.length / 4 + 6 },
    nonceSize := gcmStandardNonceSize, tagSize := gcmTagSize }

/-- The world after the calls `encryptFile` makes before its final write. -/
def sealedWorld (filePath : Str) (w : World) : World :=
  { fs := w.fs, entropy := w.entropy.drop 28,
    log := w.log ++ [.readFile filePath, .randRead 16, .randRead 12, .pbkdf2Key,
      .aesNewCipher, .cipherNewGCM, .gcmSeal] }

/-- The world after the calls `decryptFile` makes before its final write. -/
def openedWorld (filePath : Str) (w : World) : World :=
  { w with log := w.log ++ [.readFile filePath, .pbkdf2Key, .aesNewCipher, .cipherNewGCM,
      .gcmOpen] }

/-! ## Sample inputs -/

/-- The bytes of `"hello world"`. -/
def helloWorld : Bytes := [104, 101, 108, 108, 111, 32, 119, 111, 114, 108, 100]

/-- The bytes of the passphrase `"correct horse"`. -/
def correctHorse : Bytes := [99, 111, 114, 114, 101, 99, 116, 32, 104, 111, 114, 115, 101]

/-- The bytes of the passphrase `"wrong horse"`. -/
def wrongHorse : Bytes := [119, 114, 111, 110, 103, 32, 104, 111, 114, 115, 101]

/-- A passphrase of 65 bytes, the letter `a` repeated. -/
def longPassphrase : Bytes := List.replicate 65 97

/-- The SHA-256 digest of `longPassphrase`, as a passphrase of 32 bytes, none
of them zero. -/
def digestPassphrase : Bytes :=
  [99, 83, 97, 196, 139, 185, 234, 177, 65, 152, 231, 110, 168, 171, 127, 26, 65, 104, 93, 106,
   214, 42, 169, 20, 109, 48, 29, 79, 23, 235, 10, 224]

/-- The path `notes.txt`. -/
def notesTxt : Str := "notes.txt".toList

/-- A file system holding the one file `notes.txt`, with every path readable
and writable. -/
def sampleFS : FS :=
  { files := fun p => if p = notesTxt then some helloWorld else none,
    noRead := fun _ => false, noWrite := fun _ => false, quota := fun _ => none }

/-- A world over `sampleFS` whose random source delivers the bytes 0 to 27. -/
def sampleWorld : World := { fs := sampleFS, entropy := List.range 28, log := [] }

/-- A world whose only file is the container that encrypting `notes.txt`
under `password` in `sampleWorld` leaves behind. -/
def containerWorld (password : Bytes) : World :=
  { fs :=
      { files := fun p =>
          if p = notesTxt ++ ".enc".toList then
            (encryptFile password notesTxt sampleWorld).2.fs.files (notesTxt ++ ".enc".toList)
          else none,
        noRead := fun _ => false, noWrite := fun _ => false, quota := fun _ => none },
    entropy := [], log := [] }

/-- The path `notes.txt.enc`. -/
def notesEnc : Str := notesTxt ++ ".enc".toList

/-- A world whose only file is `path`, holding `data`; every path is readable
and writable, and the random source is exhausted. -/
def fileWorld (path : Str) (data : Bytes) : World :=
  { fs :=
      { files := fun p => if p = path then some data else none,
        noRead := fun _ => false, noWrite := fun _ => false, quota := fun _ => none },
    entropy := [], log := [] }

/-! ## Known answers

The embedded primitives, evaluated on the test vectors of their standards. -/

/-- The digest of `"abc"` (FIPS 180-4). -/
theorem sha256_abc :
    sha256 [97, 98, 99] =
      [0xba, 0x78, 0x16, 0xbf, 0x8f, 0x01, 0xcf, 0xea, 0x41, 0x41, 0x40, 0xde, 0x5d, 0xae, 0x22, 0x23,
       0xb0, 0x03, 0x61, 0xa3, 0x96, 0x17, 0x7a, 0x9c, 0xb4, 0x10, 0xff, 0x61, 0xf2, 0x00, 0x15, 0xad] := by
  decide!

/-- PBKDF2-HMAC-SHA-256 of `"password"` and `"salt"`, two iterations, 32 bytes. -/
theorem pbkdf2Key_two :
    pbkdf2Key [112, 97, 115, 115, 119, 111, 114, 100] [115, 97, 108, 116] 2 32 =
      [0xae, 0x4d, 0x0c, 0x95, 0xaf, 0x6b, 0x46, 0xd3, 0x2d, 0x0a, 0xdf, 0xf9, 0x28, 0xf0, 0x6d, 0xd0,
       0x2a, 0x30, 0x3f, 0x8e, 0xf3, 0xc2, 0x51, 0xdf, 0xd6, 0xe2, 0xd8, 0x5a, 0x95, 0x47, 0x4c, 0x43] := by
  decide!

/-- The AES-256 example of FIPS 197, appendix C.3. -/
theorem aes256_example :
    aesEncryptBlock (aesExpandKey (List.range 32)) 14
        [0x00, 0x11, 0x22, 0x33, 0x44, 0x55, 0x66, 0x77, 0x88, 0x99, 0xaa, 0xbb, 0xcc, 0xdd, 0xee, 0xff]
      = [0x8e, 0xa2, 0xb7, 0xca, 0x51, 0x67, 0x45, 0xbf, 0xea, 0xfc, 0x49, 0x90, 0x4b, 0x49, 0x60, 0x89] := by
  decide!

/-- GCM with the all-zero 256-bit key and nonce on one all-zero block: the
ciphertext and the tag of the GCM specification (test case 14). -/
theorem gcm_example :
    (keyGCM (List.replicate 32 0)).counterCrypt (List.replicate 12 0) (List.replicate 16 0)
      = [0xce, 0xa7, 0x40, 0x3d, 0x4d, 0x60, 0x6b, 0x6e, 0x07, 0x4e, 0xc5, 0xd3, 0xba, 0xf3, 0x9d, 0x18] ∧
    (keyGCM (List.replicate 32 0)).auth (List.replicate 12 0)
        [0xce, 0xa7, 0x40, 0x3d, 0x4d, 0x60, 0x6b, 0x6e, 0x07, 0x4e, 0xc5, 0xd3, 0xba, 0xf3, 0x9d, 0x18] []
      = [0xd0, 0xd1, 0xc8, 0xa7, 0x99, 0x99, 0x6b, 0xf0, 0x26, 0x5b, 0x98, 0xb5, 0xd4, 0x8a, 0xb9, 0x19] := by
  decide!

/-! ## Lengths and the cipher round trip -/

theorem sha256_length (m : Bytes) : (sha256 m).length = 32 := by
  simp [sha256]

theorem hmacSha256_length (k m : Bytes) : (hmacSha256 k m).length = 32 := by
  simp [hmacSha256, hmacBlock, sha256_length]

theorem xorBytes_length (a b : Bytes) : (xorBytes a b).length = min a.length b.length := by
  simp [xorBytes]

theorem pbkdf2Iterate_length (p : Bytes) (n : Nat) (tu : Bytes × Bytes)
    (h1 : tu.1.length = 32) (h2 : tu.2.length = 32) :
    (((pbkdf2Step p)^[n]) tu).1.length = 32 := by
  induction n generalizing tu with
  | zero => simpa using h1
  | succ n ih =>
    rw [Function.iterate_succ_apply]
    apply ih
    · simp [pbkdf2Step, xorBytes_length, h1, hmacSha256_length]
    · simp [pbkdf2Step, hmacSha256_length]

theorem pbkdf2Block_length (p s : Bytes) (c i : Nat) : (pbkdf2Block p s c i).length = 32 := by
  unfold pbkdf2Block
  exact pbkdf2Iterate_length p _ _ (hmacSha256_length _ _) (hmacSha256_length _ _)

theorem deriveKey_length (p s : Bytes) : (deriveKey p s).length = 32 := by
  simp [deriveKey, pbkdf2Key, keySize]

theorem aesNewCipher_deriveKey (p s : Bytes) :
    aesNewCipher (deriveKey p s) = .ok (keyGCM (deriveKey p s)).cipher := by
  simp [aesNewCipher, deriveKey_length, keyGCM]

theorem cipherNewGCM_ok (c : AesCipher) :
    cipherNewGCM c = .ok { cipher := c, nonceSize := gcmStandardNonceSize, tagSize := gcmTagSize } := by
  simp [cipherNewGCM, AesCipher.blockSize, gcmBlockSize]

theorem encrypt_length (c : AesCipher) (b : Bytes) : (c.encrypt b).length = 16 := by
  simp [AesCipher.encrypt, aesEncryptBlock, addRoundKey]

theorem gcmStream_length (g : GCM) (nonce : Bytes) (n : Nat) :
    (gcmStream g nonce n).length = 16 * ((n + 15) / 16) := by
  unfold gcmStream
  rw [List.length_flatten]
  simp [encrypt_length, Function.comp_def]
  ring

theorem gcmStream_length_ge (g : GCM) (nonce : Bytes) (n : Nat) :
    n ≤ (gcmStream g nonce n).length := by
  rw [gcmStream_length]; omega

theorem xorBytes_xorBytes (d ks : Bytes) (h : d.length ≤ ks.length) :
    xorBytes (xorBytes d ks) ks = d := by
  induction d generalizing ks with
  | nil => simp [xorBytes]
  | cons x xs ih =>
    cases ks with
    | nil => simp at h
    | cons k ks =>
      simp only [List.length_cons, Nat.add_le_add_iff_right] at h
      have := ih ks h
      simp only [xorBytes] at this ⊢
      simp [this, Nat.xor_assoc]

theorem counterCrypt_length (g : GCM) (nonce d : Bytes) :
    (g.counterCrypt nonce d).length = d.length := by
  simp [GCM.counterCrypt, xorBytes_length, gcmStream_length_ge]

theorem counterCrypt_counterCrypt (g : GCM) (nonce d : Bytes) :
    g.counterCrypt nonce (g.counterCrypt nonce d) = d := by
  rw [GCM.counterCrypt, counterCrypt_length, GCM.counterCrypt]
  exact xorBytes_xorBytes _ _ (gcmStream_length_ge _ _ _)

theorem auth_length (g : GCM) (nonce c d : Bytes) : (g.auth nonce c d).length = 16 := by
  simp [GCM.auth, beBytes]

theorem open_seal (g : GCM) (hn : g.nonceSize = 12) (ht : g.tagSize = 16)
    (nonce plain sealed : Bytes) (h : g.seal nonce plain [] = .ok sealed) :
    g.open nonce sealed [] = .ok plain := by
  unfold GCM.seal at h
  split at h
  · cases h
  · split at h
    · cases h
    · rename_i h1 h2
      injection h with h
      subst h
      have hl := counterCrypt_length g nonce plain
      have ha := auth_length g nonce (g.counterCrypt nonce plain) []
      have h1' : nonce.length = 12 := by simpa [hn] using h1
      have h2' : ¬ gcmMaxPlaintext < plain.length := h2
      simp [GCM.open, hn, ht, hl, ha, counterCrypt_counterCrypt, h1', h2']

theorem seal_ok (g : GCM) (nonce plain : Bytes) (hn : nonce.length = g.nonceSize)
    (hs : plain.length ≤ gcmMaxPlaintext) :
    g.seal nonce plain [] =
      .ok (g.counterCrypt nonce plain ++ g.auth nonce (g.counterCrypt nonce plain) []) := by
  have h2 : ¬ plain.length > gcmMaxPlaintext := by omega
  simp [GCM.seal, hn, h2]

theorem seal_length (g : GCM) (nonce plain sealed : Bytes)
    (h : g.seal nonce plain [] = .ok sealed) : sealed.length = plain.length + 16 := by
  unfold GCM.seal at h
  split at h
  · cases h
  · split at h
    · cases h
    · injection h with h
      subst h
      simp [counterCrypt_length, auth_length]

theorem open_error (g : GCM) (hn : g.nonceSize = 12) (ht : g.tagSize = 16)
    (nonce c : Bytes) (hl : nonce.length = 12) (e : Error)
    (h : g.open nonce c [] = .error e) : e = .errOpen := by
  unfold GCM.open at h
  simp only [hn, ht, hl] at h
  split at h
  · simp at *
  · split at h
    · simp at *
    · split at h
      · injection h with h; exact h.symm
      · split at h
        · injection h with h; exact h.symm
        · split at h
          · injection h with h; exact h.symm
          · cases h

theorem hasSuffix_append (p s : Str) : hasSuffix (p ++ s) s = true := by
  simp [hasSuffix]

theorem trimSuffix_append (p s : Str) : trimSuffix (p ++ s) s = p := by
  simp [trimSuffix, hasSuffix_append]

theorem encryptFile_eval (password : Bytes) (filePath : Str) (plain : Bytes) (w : World)
    (hfile : w.fs.files filePath = some plain) (hread : w.fs.noRead filePath = false)
    (hrand : 28 ≤ w.entropy.length) :
    encryptFile password filePath w =
      match (keyGCM (deriveKey password (w.entropy.take 16))).seal
          ((w.entropy.drop 16).take 12) plain [] with
      | .error err => (.error err, sealedWorld filePath w)
      | .ok ciphertext =>
        osWriteFile (filePath ++ ".enc".toList)
          (w.entropy.take 16 ++ (w.entropy.drop 16).take 12 ++ ciphertext)
          (sealedWorld filePath w) := by
  have h1 : ¬ w.entropy.length < 16 := by omega
  have h2 : ¬ w.entropy.length - 16 < 12 := by omega
  have hk : ∀ k, GCM.mk (keyGCM k).cipher gcmStandardNonceSize gcmTagSize = keyGCM k :=
    fun k => rfl
  simp only [encryptFile, osReadFile, hread, hfile, randRead, World.call, saltSize, nonceSize,
    aesNewCipher_deriveKey, cipherNewGCM_ok, List.length_drop, h1, h2, Bool.false_eq_true,
    ↓reduceIte, hk, sealedWorld, List.append_assoc, List.singleton_append, List.drop_drop,
    List.cons_append, List.nil_append, Nat.reduceAdd]

theorem decryptFile_eval (password : Bytes) (filePath : Str) (data : Bytes) (w : World)
    (hfile : w.fs.files filePath = some data) (hread : w.fs.noRead filePath = false)
    (hlen : 28 ≤ data.length) :
    decryptFile password filePath w =
      match (keyGCM (deriveKey password (data.take 16))).open
          ((data.take 28).drop 16) (data.drop 28) [] with
      | .error err => (.error err, openedWorld filePath w)
      | .ok plain => osWriteFile (trimSuffix filePath ".enc".toList) plain (openedWorld filePath w) := by
  have hk : ∀ k, GCM.mk (keyGCM k).cipher gcmStandardNonceSize gcmTagSize = keyGCM k :=
    fun k => rfl
  have h1 : ¬ data.length < 28 := by omega
  simp only [decryptFile, osReadFile, hread, hfile, World.call, saltSize, nonceSize,
    Nat.reduceAdd, h1, aesNewCipher_deriveKey, cipherNewGCM_ok, Bool.false_eq_true,
    ↓reduceIte, hk, openedWorld, List.append_assoc, List.singleton_append,
    List.cons_append, List.nil_append]

/-! ## The two programs on a readable input -/

theorem osWriteFile_ok (path : Str) (data : Bytes) (w : World)
    (hw : w.fs.noWrite path = false) (hq : w.fs.quota path = none) :
    osWriteFile path data w =
      (.ok (), { fs := w.fs.put path data, entropy := w.entropy,
                 log := w.log ++ [.writeFile path] }) := by
  simp [osWriteFile, hw, hq, World.call]

theorem osWriteFile_written (path : Str) (data : Bytes) (w : World)
    (h : (osWriteFile path data w).1 = .ok ()) :
    (osWriteFile path data w).2.fs.files path = some data := by
  by_cases hw : w.fs.noWrite path = true
  · simp [osWriteFile, hw] at h
  · cases hq : w.fs.quota path with
    | none => simp [osWriteFile, hw, hq, FS.put]
    | some k =>
      by_cases hl : data.length > k
      · simp [osWriteFile, hw, hq, hl] at h
      · simp [osWriteFile, hw, hq, hl, FS.put]

theorem put_files_same (fs : FS) (path : Str) (data : Bytes) :
    (fs.put path data).files path = some data := by
  simp [FS.put]

/-- What `encryptFile` leaves in the output file when it returns no error. -/
theorem encryptFile_written (password : Bytes) (filePath : Str) (plain : Bytes) (w : World)
    (hfile : w.fs.files filePath = some plain) (hread : w.fs.noRead filePath = false)
    (hrand : 28 ≤ w.entropy.length)
    (hok : (encryptFile password filePath w).1 = .ok ()) :
    ∃ ciphertext,
      (keyGCM (deriveKey password (w.entropy.take 16))).seal
          ((w.entropy.drop 16).take 12) plain [] = .ok ciphertext ∧
      (encryptFile password filePath w).2.fs.files (filePath ++ ".enc".toList) =
        some (w.entropy.take 16 ++ (w.entropy.drop 16).take 12 ++ ciphertext) := by
  rw [encryptFile_eval password filePath plain w hfile hread hrand] at hok ⊢
  cases hs : (keyGCM (deriveKey password (w.entropy.take 16))).seal
      ((w.entropy.drop 16).take 12) plain [] with
  | error e => simp [hs] at hok
  | ok ciphertext =>
    simp only [hs] at hok ⊢
    exact ⟨ciphertext, rfl, osWriteFile_written _ _ _ hok⟩

/-- When `encryptFile` returns no error. -/
theorem encryptFile_ok (password : Bytes) (filePath : Str) (plain : Bytes) (w : World)
    (hfile : w.fs.files filePath = some plain) (hread : w.fs.noRead filePath = false)
    (hrand : 28 ≤ w.entropy.length) (hsize : plain.length ≤ gcmMaxPlaintext)
    (hwrite : w.fs.noWrite (filePath ++ ".enc".toList) = false)
    (hquota : w.fs.quota (filePath ++ ".enc".toList) = none) :
    (encryptFile password filePath w).1 = .ok () := by
  have hn : ((w.entropy.drop 16).take 12).length
      = (keyGCM (deriveKey password (w.entropy.take 16))).nonceSize := by
    simp [keyGCM, gcmStandardNonceSize]; omega
  rw [encryptFile_eval password filePath plain w hfile hread hrand,
    seal_ok _ _ _ hn hsize]
  simp only []
  rw [osWriteFile_ok _ _ _ (by simpa [sealedWorld] using hwrite)
    (by simpa [sealedWorld] using hquota)]

/-- The run of `decryptFile` on a file holding `salt ‖ nonce ‖ sealed`. -/
theorem decryptFile_container (password : Bytes) (filePath : Str) (salt nonce ciphertext : Bytes)
    (v : World) (hs : salt.length = 16) (hn : nonce.length = 12)
    (hfile : v.fs.files filePath = some (salt ++ nonce ++ ciphertext))
    (hread : v.fs.noRead filePath = false) :
    decryptFile password filePath v =
      match (keyGCM (deriveKey password salt)).open nonce ciphertext [] with
      | .error err => (.error err, openedWorld filePath v)
      | .ok plain =>
        osWriteFile (trimSuffix filePath ".enc".toList) plain (openedWorld filePath v) := by
  rw [decryptFile_eval password filePath _ v hfile hread (by simp; omega)]
  have h1 : (salt ++ nonce ++ ciphertext).take 16 = salt := by
    rw [List.append_assoc, List.take_append_of_le_length (by omega), ← hs, List.take_length]
  have h2 : ((salt ++ nonce ++ ciphertext).take 28).drop 16 = nonce := by
    rw [List.take_append_eq_append_take]
    simp [hs, hn, List.take_append_eq_append_take, List.drop_append_eq_append_drop]
  have h3 : (salt ++ nonce ++ ciphertext).drop 28 = ciphertext := by
    simp [hs, hn, List.drop_append_eq_append_drop]
  rw [h1, h2, h3]

/-! ## Round trip -/

/-- C1. Round trip. The input file holds `plain`, and the random source delivers
the 28 bytes of a salt and a nonce, whatever they are. Encryption returns no
error whenever the plaintext is within the capacity of GCM and the output file
can be written; and whenever it returns no error, decrypting with the same
passphrase, in any state of the world `v` whose file `filePath ++ ".enc"` holds
what encryption left there, returns no error and writes exactly `plain`. -/
theorem decrypt_encrypt_roundtrip (password : Bytes) (filePath : Str) (plain : Bytes)
    (w v : World)
    (hfile : w.fs.files filePath = some plain) (hread : w.fs.noRead filePath = false)
    (hrand : 28 ≤ w.entropy.length)
    (hcont : v.fs.files (filePath ++ ".enc".toList)
      = (encryptFile password filePath w).2.fs.files (filePath ++ ".enc".toList))
    (hvread : v.fs.noRead (filePath ++ ".enc".toList) = false)
    (hvwrite : v.fs.noWrite filePath = false) (hvquota : v.fs.quota filePath = none) :
    (plain.length ≤ gcmMaxPlaintext → w.fs.noWrite (filePath ++ ".enc".toList) = false →
        w.fs.quota (filePath ++ ".enc".toList) = none →
        (encryptFile password filePath w).1 = .ok ()) ∧
    ((encryptFile password filePath w).1 = .ok () →
      (decryptFile password (filePath ++ ".enc".toList) v).1 = .ok () ∧
      (decryptFile password (filePath ++ ".enc".toList) v).2.fs.files filePath = some plain) := by
  refine ⟨fun hsize hwrite hquota =>
    encryptFile_ok password filePath plain w hfile hread hrand hsize hwrite hquota, fun hok => ?_⟩
  obtain ⟨ciphertext, hseal, hwritten⟩ :=
    encryptFile_written password filePath plain w hfile hread hrand hok
  rw [hwritten] at hcont
  have hopen := open_seal _ rfl rfl _ _ _ hseal
  rw [decryptFile_container password _ (w.entropy.take 16) ((w.entropy.drop 16).take 12)
    ciphertext v (by simp; omega) (by simp; omega) hcont hvread, hopen]
  simp only [trimSuffix_append]
  rw [osWriteFile_ok _ _ _ (by simpa [openedWorld] using hvwrite)
    (by simpa [openedWorld] using hvquota)]
  exact ⟨rfl, put_files_same _ _ _⟩

theorem decrypt_encrypt_roundtrip_witness :
    (encryptFile correctHorse notesTxt sampleWorld).1 = .ok () ∧
    (decryptFile correctHorse (notesTxt ++ ".enc".toList) (containerWorld correctHorse)).1
      = .ok () ∧
    (decryptFile correctHorse (notesTxt ++ ".enc".toList)
      (containerWorld correctHorse)).2.fs.files notesTxt = some helloWorld :=
  have h := decrypt_encrypt_roundtrip correctHorse notesTxt helloWorld sampleWorld
    (containerWorld correctHorse) (by decide) (by decide) (by decide) (by simp [containerWorld])
    (by decide) (by decide) (by decide)
  ⟨h.1 (by decide) (by decide) (by decide), h.2 (h.1 (by decide) (by decide) (by decide))⟩

/-! ## Container layout -/

/-- C5. Container layout and size. The input file holds `plain` and the random
source delivers a 16-byte `salt`, then a 12-byte `nonce`. Encryption returns no
error whenever the plaintext is within the capacity of GCM and the output file
can be written; and whenever it returns no error, the output file holds exactly
`salt ‖ nonce ‖ Seal(deriveKey(password, salt), nonce, plain, no data)`: its
bytes 0..16 are the salt, its bytes 16..28 the nonce, and its length is
`28 + len(plain) + 16`. -/
theorem container_layout (password : Bytes) (filePath : Str) (plain salt nonce rest : Bytes)
    (w : World)
    (hfile : w.fs.files filePath = some plain) (hread : w.fs.noRead filePath = false)
    (hs : salt.length = saltSize) (hn : nonce.length = nonceSize)
    (hent : w.entropy = salt ++ nonce ++ rest) :
    (plain.length ≤ gcmMaxPlaintext → w.fs.noWrite (filePath ++ ".enc".toList) = false →
        w.fs.quota (filePath ++ ".enc".toList) = none →
        (encryptFile password filePath w).1 = .ok ()) ∧
    ((encryptFile password filePath w).1 = .ok () →
      ∃ block gcm sealed out,
        aesNewCipher (deriveKey password salt) = .ok block ∧
        cipherNewGCM block = .ok gcm ∧
        gcm.seal nonce plain [] = .ok sealed ∧
        (encryptFile password filePath w).2.fs.files (filePath ++ ".enc".toList) = some out ∧
        out = salt ++ nonce ++ sealed ∧
        out.take 16 = salt ∧ (out.take 28).drop 16 = nonce ∧ out.drop 28 = sealed ∧
        out.length = 28 + plain.length + 16) := by
  have hs' : salt.length = 16 := hs
  have hn' : nonce.length = 12 := hn
  have hrand : 28 ≤ w.entropy.length := by simp [hent, hs', hn']; omega
  have e1 : w.entropy.take 16 = salt := by
    rw [hent, List.append_assoc, List.take_append_of_le_length (by omega), ← hs',
      List.take_length]
  have e2 : (w.entropy.drop 16).take 12 = nonce := by
    simp [hent, hs', hn', List.take_append_eq_append_take, List.drop_append_eq_append_drop]
  refine ⟨fun hsize hwrite hquota =>
    encryptFile_ok password filePath plain w hfile hread hrand hsize hwrite hquota, fun hok => ?_⟩
  obtain ⟨sealed, hseal, hwritten⟩ :=
    encryptFile_written password filePath plain w hfile hread hrand hok
  rw [e1, e2] at hseal hwritten
  refine ⟨_, _, sealed, _, aesNewCipher_deriveKey password salt, cipherNewGCM_ok _, hseal,
    hwritten, rfl, ?_, ?_, ?_, ?_⟩
  · rw [List.append_assoc, List.take_append_of_le_length (by omega), ← hs', List.take_length]
  · simp [hs', hn', List.take_append_eq_append_take, List.drop_append_eq_append_drop]
  · simp [hs', hn', List.drop_append_eq_append_drop]
  · simp [hs', hn', seal_length _ _ _ _ hseal]; omega

theorem container_layout_witness :
    (encryptFile correctHorse notesTxt sampleWorld).1 = .ok () ∧
    ∃ block gcm sealed out,
      aesNewCipher (deriveKey correctHorse (List.range 16)) = .ok block ∧
      cipherNewGCM block = .ok gcm ∧
      gcm.seal [16, 17, 18, 19, 20, 21, 22, 23, 24, 25, 26, 27] helloWorld [] = .ok sealed ∧
      (encryptFile correctHorse notesTxt sampleWorld).2.fs.files (notesTxt ++ ".enc".toList)
        = some out ∧
      out = List.range 16 ++ [16, 17, 18, 19, 20, 21, 22, 23, 24, 25, 26, 27] ++ sealed ∧
      out.take 16 = List.range 16 ∧
      (out.take 28).drop 16 = [16, 17, 18, 19, 20, 21, 22, 23, 24, 25, 26, 27] ∧
      out.drop 28 = sealed ∧
      out.length = 28 + helloWorld.length + 16 :=
  have h := container_layout correctHorse notesTxt helloWorld (List.range 16)
    [16, 17, 18, 19, 20, 21, 22, 23, 24, 25, 26, 27] [] sampleWorld
    (by decide) (by decide) (by decide) (by decide) (by decide)
  ⟨h.1 (by decide) (by decide) (by decide), h.2 (h.1 (by decide) (by decide) (by decide))⟩

/-! ## Key derivation -/

theorem sha256_lt (m : Bytes) : ∀ b ∈ sha256 m, b < 256 := by
  intro b hb
  simp only [sha256, List.mem_map] at hb
  obtain ⟨i, _, rfl⟩ := hb
  exact Nat.mod_lt _ (by decide)

theorem hmacSha256_lt (k m : Bytes) : ∀ b ∈ hmacSha256 k m, b < 256 :=
  sha256_lt _

theorem xorBytes_lt (a b : Bytes) (ha : ∀ x ∈ a, x < 256) (hb : ∀ x ∈ b, x < 256) :
    ∀ x ∈ xorBytes a b, x < 256 := by
  induction a generalizing b with
  | nil => simp [xorBytes]
  | cons x xs ih =>
    cases b with
    | nil => simp [xorBytes]
    | cons y ys =>
      intro z hz
      simp only [xorBytes, List.zipWith_cons_cons, List.mem_cons] at hz
      rcases hz with rfl | hz
      · exact Nat.xor_lt_two_pow (n := 8) (ha x (by simp)) (hb y (by simp))
      · exact ih ys (fun x hx => ha x (by simp [hx])) (fun x hx => hb x (by simp [hx])) z hz

theorem pbkdf2Iterate_lt (p : Bytes) (n : Nat) (tu : Bytes × Bytes)
    (h1 : ∀ x ∈ tu.1, x < 256) :
    ∀ x ∈ (((pbkdf2Step p)^[n]) tu).1, x < 256 := by
  induction n generalizing tu with
  | zero => simpa using h1
  | succ n ih =>
    rw [Function.iterate_succ_apply]
    exact ih _ (xorBytes_lt _ _ h1 (hmacSha256_lt _ _))

theorem pbkdf2Key_lt (p s : Bytes) (c n : Nat) : ∀ x ∈ pbkdf2Key p s c n, x < 256 := by
  intro x hx
  simp only [pbkdf2Key, List.mem_map] at hx
  obtain ⟨i, _, rfl⟩ := hx
  rw [List.getD_eq_getElem?_getD]
  cases hi : (List.map (fun b => pbkdf2Block p s c (b + 1))
      (List.range ((n + 32 - 1) / 32))).flatten[i]? with
  | none => simp
  | some y =>
    simp only [Option.getD_some]
    have hy := List.getElem?_mem hi
    simp only [List.mem_flatten, List.mem_map] at hy
    obtain ⟨l, ⟨b, _, rfl⟩, hyl⟩ := hy
    exact pbkdf2Iterate_lt p _ _ (hmacSha256_lt _ _) y hyl

/-- C8. Key derivation. For every passphrase and every salt `deriveKey` returns
exactly 32 bytes, each below 256; the key is PBKDF2 with HMAC-SHA-256 at the
fixed count of 100,000 iterations, a function of the pair (passphrase, salt)
alone, so equal pairs give equal keys; and the key rebuilt from the first 16
bytes of a container `salt ‖ nonce ‖ ciphertext` is the key derived from the
salt at encryption. -/
theorem deriveKey_spec (password salt : Bytes) :
    (deriveKey password salt).length = 32 ∧
    (∀ b ∈ deriveKey password salt, b < 256) ∧
    deriveKey password salt = pbkdf2Key password salt 100000 32 ∧
    (∀ password' salt', password' = password → salt' = salt →
      deriveKey password' salt' = deriveKey password salt) ∧
    (∀ nonce ciphertext, salt.length = saltSize →
      deriveKey password ((salt ++ nonce ++ ciphertext).take saltSize)
        = deriveKey password salt) := by
  refine ⟨deriveKey_length _ _, pbkdf2Key_lt _ _ _ _, rfl, ?_, ?_⟩
  · intro p' s' hp hs
    rw [hp, hs]
  · intro nonce ciphertext hs
    rw [List.append_assoc, List.take_append_of_le_length (by omega), ← hs, List.take_length]

theorem deriveKey_spec_witness :
    (deriveKey correctHorse (List.range 16)).length = 32 ∧
    (∀ b ∈ deriveKey correctHorse (List.range 16), b < 256) ∧
    deriveKey correctHorse (List.range 16) = pbkdf2Key correctHorse (List.range 16) 100000 32 ∧
    deriveKey correctHorse (List.range 16) = deriveKey correctHorse (List.range 16) ∧
    deriveKey correctHorse ((List.range 16 ++ [1, 2] ++ [3]).take saltSize)
      = deriveKey correctHorse (List.range 16) :=
  have h := deriveKey_spec correctHorse (List.range 16)
  ⟨h.1, h.2.1, h.2.2.1, h.2.2.2.1 _ _ rfl rfl, h.2.2.2.2 [1, 2] [3] (by decide)⟩

/-! ## Errors of decryption -/

theorem osWriteFile_error (path : Str) (data : Bytes) (w : World) (err : Error)
    (h : (osWriteFile path data w).1 = .error err) :
    ∃ op, err = .pathError op path false := by
  by_cases hw : w.fs.noWrite path = true
  · simp only [osWriteFile, hw, ↓reduceIte] at h
    injection h with h
    exact ⟨_, h.symm⟩
  · cases hq : w.fs.quota path with
    | none => simp [osWriteFile, hw, hq] at h
    | some k =>
      by_cases hl : data.length > k
      · simp only [osWriteFile, hw, hq, hl, ↓reduceIte] at h
        injection h with h
        exact ⟨_, h.symm⟩
      · simp [osWriteFile, hw, hq, hl] at h

theorem decryptFile_short (password : Bytes) (filePath : Str) (data : Bytes) (w : World)
    (hfile : w.fs.files filePath = some data) (hread : w.fs.noRead filePath = false)
    (hlen : data.length < 28) :
    decryptFile password filePath w
      = (.error .invalidEncryptedFile, w.call (.readFile filePath)) := by
  simp [decryptFile, osReadFile, hread, hfile, saltSize, nonceSize, hlen]

/-- C4. Minimum length. On a readable file holding `data`, `decryptFile` fails
with the error "invalid encrypted file" exactly when `data` has fewer than 28
bytes; it then stops right after reading the file, with no key derivation and
no cipher call in its log and the file system untouched. With 28 bytes or more
the key is derived from `data[0:16]`, the cipher and GCM are built without
error, `Open` runs on the nonce `data[16:28]` and the ciphertext `data[28:]`,
and the only error `Open` can return is the authentication failure. -/
theorem minimum_length (password : Bytes) (filePath : Str) (data : Bytes) (w : World)
    (hfile : w.fs.files filePath = some data) (hread : w.fs.noRead filePath = false) :
    ((decryptFile password filePath w).1 = .error .invalidEncryptedFile ↔ data.length < 28) ∧
    (data.length < 28 →
      decryptFile password filePath w
        = (.error .invalidEncryptedFile,
            { fs := w.fs, entropy := w.entropy, log := w.log ++ [.readFile filePath] })) ∧
    (28 ≤ data.length →
      ∃ block gcm,
        aesNewCipher (deriveKey password (data.take 16)) = .ok block ∧
        cipherNewGCM block = .ok gcm ∧
        decryptFile password filePath w =
          (match gcm.open ((data.take 28).drop 16) (data.drop 28) [] with
            | .error err => (.error err, openedWorld filePath w)
            | .ok plain =>
              osWriteFile (trimSuffix filePath ".enc".toList) plain (openedWorld filePath w)) ∧
        ∀ err, gcm.open ((data.take 28).drop 16) (data.drop 28) [] = .error err →
          err = .errOpen) := by
  have hlong : 28 ≤ data.length →
      ∀ err, (keyGCM (deriveKey password (data.take 16))).open
        ((data.take 28).drop 16) (data.drop 28) [] = .error err → err = .errOpen := by
    intro hlen err h
    exact open_error _ rfl rfl _ _ (by simp; omega) err h
  refine ⟨⟨fun h => ?_, fun h => ?_⟩, fun h => ?_, fun h => ?_⟩
  · by_contra hlen
    have hlen : 28 ≤ data.length := by omega
    rw [decryptFile_eval password filePath data w hfile hread hlen] at h
    cases ho : (keyGCM (deriveKey password (data.take 16))).open
        ((data.take 28).drop 16) (data.drop 28) [] with
    | error e =>
      have := hlong hlen e ho
      simp [ho, this] at h
    | ok plain =>
      simp only [ho] at h
      obtain ⟨op, hop⟩ := osWriteFile_error _ _ _ _ h
      cases hop
  · rw [decryptFile_short password filePath data w hfile hread h]
  · rw [decryptFile_short password filePath data w hfile hread h]
    rfl
  · exact ⟨_, _, aesNewCipher_deriveKey _ _, cipherNewGCM_ok _,
      decryptFile_eval password filePath data w hfile hread h, hlong h⟩

theorem minimum_length_witness :
    decryptFile correctHorse notesEnc (fileWorld notesEnc (List.range 27))
      = (.error .invalidEncryptedFile,
          { fs := (fileWorld notesEnc (List.range 27)).fs,
            entropy := (fileWorld notesEnc (List.range 27)).entropy,
            log := (fileWorld notesEnc (List.range 27)).log ++ [.readFile notesEnc] }) ∧
    ¬ (decryptFile correctHorse notesEnc (fileWorld notesEnc (List.range 28))).1
      = .error .invalidEncryptedFile :=
  ⟨(minimum_length correctHorse notesEnc (List.range 27) (fileWorld notesEnc (List.range 27))
      (by simp [fileWorld]) (by simp [fileWorld])).2.1 (by simp),
   fun h => absurd
    ((minimum_length correctHorse notesEnc (List.range 28) (fileWorld notesEnc (List.range 28))
      (by simp [fileWorld]) (by simp [fileWorld])).1.mp h) (by simp)⟩

theorem open_short (g : GCM) (hn : g.nonceSize = 12) (ht : g.tagSize = 16)
    (nonce c : Bytes) (hl : nonce.length = 12) (hc : c.length < 16) :
    g.open nonce c [] = .error .errOpen := by
  simp [GCM.open, hn, ht, hl, hc]

/-- C6. Unified authentication error. On a readable file of at least 28 bytes,
whatever the passphrase and the bytes: every error `decryptFile` returns is the
one value `errOpen`, unless it is the error of the final write, which happens
only after `Open` has succeeded; when the error is `errOpen` the run ends right
after the call of `Open`, with the file system untouched; a ciphertext region
shorter than the 16-byte tag gives that same error; and when the output file
can be written, `errOpen` is the only error there is. -/
theorem auth_error_unified (password : Bytes) (filePath : Str) (data : Bytes) (w : World)
    (hfile : w.fs.files filePath = some data) (hread : w.fs.noRead filePath = false)
    (hlen : 28 ≤ data.length) :
    (∀ err, (decryptFile password filePath w).1 = .error err →
      err = .errOpen ∨
      ∃ plain,
        (keyGCM (deriveKey password (data.take 16))).open
          ((data.take 28).drop 16) (data.drop 28) [] = .ok plain ∧
        (osWriteFile (trimSuffix filePath ".enc".toList) plain (openedWorld filePath w)).1
          = .error err) ∧
    ((decryptFile password filePath w).1 = .error .errOpen →
      decryptFile password filePath w = (.error .errOpen, openedWorld filePath w)) ∧
    (data.length < 44 → (decryptFile password filePath w).1 = .error .errOpen) ∧
    (w.fs.noWrite (trimSuffix filePath ".enc".toList) = false →
      w.fs.quota (trimSuffix filePath ".enc".toList) = none →
      ∀ err, (decryptFile password filePath w).1 = .error err → err = .errOpen) := by
  rw [decryptFile_eval password filePath data w hfile hread hlen]
  cases ho : (keyGCM (deriveKey password (data.take 16))).open
      ((data.take 28).drop 16) (data.drop 28) [] with
  | error e =>
    have he : e = .errOpen := open_error _ rfl rfl _ _ (by simp; omega) e ho
    subst he
    refine ⟨fun err h => ?_, fun _ => rfl, fun _ => rfl, fun _ _ err h => ?_⟩
    · simp only at h
      injection h with h
      exact Or.inl h.symm
    · simp only at h
      injection h with h
      exact h.symm
  | ok plain =>
    refine ⟨fun err h => Or.inr ⟨plain, rfl, h⟩, fun h => ?_, fun h => ?_,
      fun hw hq err h => ?_⟩
    · simp only at h
      obtain ⟨op, hop⟩ := osWriteFile_error _ _ _ _ h
      cases hop
    · exfalso
      rw [open_short _ rfl rfl _ _ (by simp; omega) (by simp; omega)] at ho
      cases ho
    · exfalso
      simp only at h
      rw [osWriteFile_ok _ _ _ (by simpa [openedWorld] using hw)
        (by simpa [openedWorld] using hq)] at h
      cases h

theorem auth_error_unified_witness :
    (decryptFile correctHorse notesEnc (fileWorld notesEnc (List.range 28))).1
      = .error .errOpen ∧
    decryptFile correctHorse notesEnc (fileWorld notesEnc (List.range 28))
      = (.error .errOpen, openedWorld notesEnc (fileWorld notesEnc (List.range 28))) :=
  have h := auth_error_unified correctHorse notesEnc (List.range 28)
    (fileWorld notesEnc (List.range 28)) (by simp [fileWorld]) (by simp [fileWorld]) (by simp)
  ⟨h.2.2.1 (by simp), h.2.1 (h.2.2.1 (by simp))⟩

/-! ## No partial output -/

theorem decryptFile_unreadable (password : Bytes) (filePath : Str) (w : World) (e : Error)
    (h : (osReadFile filePath w).1 = .error e) :
    decryptFile password filePath w = (.error e, w.call (.readFile filePath)) := by
  by_cases hr : w.fs.noRead filePath = true
  · simp only [osReadFile, hr, ↓reduceIte] at h
    injection h with h
    subst h
    simp [decryptFile, osReadFile, hr]
  · cases hf : w.fs.files filePath with
    | none =>
      simp only [osReadFile, hr, hf, ↓reduceIte] at h
      injection h with h
      subst h
      simp [decryptFile, osReadFile, hr, hf]
    | some data => simp [osReadFile, hr, hf] at h

theorem encryptFile_unreadable (password : Bytes) (filePath : Str) (w : World) (e : Error)
    (h : (osReadFile filePath w).1 = .error e) :
    encryptFile password filePath w = (.error e, w.call (.readFile filePath)) := by
  by_cases hr : w.fs.noRead filePath = true
  · simp only [osReadFile, hr, ↓reduceIte] at h
    injection h with h
    subst h
    simp [encryptFile, osReadFile, hr]
  · cases hf : w.fs.files filePath with
    | none =>
      simp only [osReadFile, hr, hf, ↓reduceIte] at h
      injection h with h
      subst h
      simp [encryptFile, osReadFile, hr, hf]
    | some data => simp [osReadFile, hr, hf] at h

theorem osReadFile_cases (filePath : Str) (w : World) :
    (∃ e, (osReadFile filePath w).1 = .error e) ∨
    (∃ data, w.fs.files filePath = some data ∧ w.fs.noRead filePath = false) := by
  by_cases hr : w.fs.noRead filePath = true
  · exact Or.inl ⟨.pathError "open".toList filePath false, by simp [osReadFile, hr]⟩
  · cases hf : w.fs.files filePath with
    | none =>
      exact Or.inl ⟨.pathError "open".toList filePath true, by simp [osReadFile, hr, hf]⟩
    | some data => exact Or.inr ⟨data, rfl, by simpa using hr⟩

theorem decryptFile_early_error (password : Bytes) (filePath : Str) (w : World) (err : Error)
    (h : (decryptFile password filePath w).1 = .error err)
    (hc : (osReadFile filePath w).1 = .error err ∨ err = .invalidEncryptedFile ∨ err = .errOpen) :
    (decryptFile password filePath w).2.fs = w.fs ∧
    ∃ l, (decryptFile password filePath w).2.log = w.log ++ l ∧ ∀ q, Call.writeFile q ∉ l := by
  rcases osReadFile_cases filePath w with ⟨e, he⟩ | ⟨data, hf, hr⟩
  · rw [decryptFile_unreadable password filePath w e he]
    exact ⟨rfl, [.readFile filePath], rfl, by simp⟩
  · by_cases hlen : data.length < 28
    · rw [decryptFile_short password filePath data w hf hr hlen]
      exact ⟨rfl, [.readFile filePath], rfl, by simp⟩
    · have hlen : 28 ≤ data.length := by omega
      rw [decryptFile_eval password filePath data w hf hr hlen] at h ⊢
      cases ho : (keyGCM (deriveKey password (data.take 16))).open
          ((data.take 28).drop 16) (data.drop 28) [] with
      | error e => exact ⟨rfl, _, rfl, by simp⟩
      | ok plain =>
        exfalso
        simp only [ho] at h
        obtain ⟨op, hop⟩ := osWriteFile_error _ _ _ _ h
        subst hop
        simp [osReadFile, hr, hf] at hc

theorem encryptFile_early_error (password : Bytes) (filePath : Str) (w : World) (err : Error)
    (h : (encryptFile password filePath w).1 = .error err)
    (hc : (osReadFile filePath w).1 = .error err ∨ err = .randomness) :
    (encryptFile password filePath w).2.fs = w.fs ∧
    ∃ l, (encryptFile password filePath w).2.log = w.log ++ l ∧ ∀ q, Call.writeFile q ∉ l := by
  rcases osReadFile_cases filePath w with ⟨e, he⟩ | ⟨plain, hf, hr⟩
  · rw [encryptFile_unreadable password filePath w e he]
    exact ⟨rfl, [.readFile filePath], rfl, by simp⟩
  · by_cases h16 : w.entropy.length < 16
    · have hd : encryptFile password filePath w = (.error .randomness,
          { fs := w.fs, entropy := w.entropy,
            log := w.log ++ [.readFile filePath, .randRead 16] }) := by
        simp [encryptFile, osReadFile, hr, hf, World.call, randRead, saltSize, h16]
      rw [hd]
      exact ⟨rfl, _, rfl, by simp⟩
    · by_cases h28 : w.entropy.length - 16 < 12
      · have hd : encryptFile password filePath w = (.error .randomness,
            { fs := w.fs, entropy := w.entropy.drop 16,
              log := w.log ++ [.readFile filePath, .randRead 16, .randRead 12] }) := by
          simp [encryptFile, osReadFile, hr, hf, World.call, randRead, saltSize, nonceSize,
            h16, h28]
        rw [hd]
        exact ⟨rfl, _, rfl, by simp⟩
      · have hrand : 28 ≤ w.entropy.length := by omega
        rw [encryptFile_eval password filePath plain w hf hr hrand] at h ⊢
        cases hs : (keyGCM (deriveKey password (w.entropy.take 16))).seal
            ((w.entropy.drop 16).take 12) plain [] with
        | error e => exact ⟨rfl, _, rfl, by simp⟩
        | ok ciphertext =>
          exfalso
          simp only [hs] at h
          obtain ⟨op, hop⟩ := osWriteFile_error _ _ _ _ h
          subst hop
          simp [osReadFile, hr, hf] at hc

/-- C7. No partial output. Whenever `decryptFile` returns an error raised
before its final write (the error of the read, "invalid encrypted file", or
the authentication failure), and whenever `encryptFile` returns an error raised
before its final write (the error of the read, or the failure of the random
source), the file system is exactly as it was before the call, and the calls
the run added to the log contain no `WriteFile`. -/
theorem failure_leaves_files (password : Bytes) (filePath : Str) (w : World) (err : Error) :
    ((decryptFile password filePath w).1 = .error err →
      ((osReadFile filePath w).1 = .error err ∨ err = .invalidEncryptedFile ∨ err = .errOpen) →
      (decryptFile password filePath w).2.fs = w.fs ∧
      ∃ l, (decryptFile password filePath w).2.log = w.log ++ l ∧
        ∀ q, Call.writeFile q ∉ l) ∧
    ((encryptFile password filePath w).1 = .error err →
      ((osReadFile filePath w).1 = .error err ∨ err = .randomness) →
      (encryptFile password filePath w).2.fs = w.fs ∧
      ∃ l, (encryptFile password filePath w).2.log = w.log ++ l ∧
        ∀ q, Call.writeFile q ∉ l) :=
  ⟨decryptFile_early_error password filePath w err,
   encryptFile_early_error password filePath w err⟩

theorem failure_leaves_files_witness :
    ((decryptFile correctHorse notesTxt (fileWorld notesEnc (List.range 27))).2.fs
        = (fileWorld notesEnc (List.range 27)).fs ∧
      ∃ l, (decryptFile correctHorse notesTxt (fileWorld notesEnc (List.range 27))).2.log
          = (fileWorld notesEnc (List.range 27)).log ++ l ∧
        ∀ q, Call.writeFile q ∉ l) ∧
    ((encryptFile correctHorse notesTxt (fileWorld notesEnc (List.range 27))).2.fs
        = (fileWorld notesEnc (List.range 27)).fs ∧
      ∃ l, (encryptFile correctHorse notesTxt (fileWorld notesEnc (List.range 27))).2.log
          = (fileWorld notesEnc (List.range 27)).log ++ l ∧
        ∀ q, Call.writeFile q ∉ l) :=
  have hr : (osReadFile notesTxt (fileWorld notesEnc (List.range 27))).1
      = .error (.pathError "open".toList notesTxt true) := by rfl
  have h := failure_leaves_files correctHorse notesTxt (fileWorld notesEnc (List.range 27))
    (.pathError "open".toList notesTxt true)
  ⟨h.1 (by rw [decryptFile_unreadable _ _ _ _ hr]) (Or.inl hr),
   h.2 (by rw [encryptFile_unreadable _ _ _ _ hr]) (Or.inl hr)⟩

/-! ## Decrypting under another passphrase -/

/-- The derived key depends on the passphrase through its HMAC key block only. -/
theorem deriveKey_congr (p q s : Bytes) (h : hmacKey p = hmacKey q) :
    deriveKey p s = deriveKey q s := by
  have hm : ∀ m, hmacSha256 p m = hmacSha256 q m := by
    intro m; simp [hmacSha256, h]
  have hs : pbkdf2Step p = pbkdf2Step q := by
    funext tu; simp [pbkdf2Step, hm]
  simp [deriveKey, pbkdf2Key, pbkdf2Block, hm, hs]

/-- A passphrase shorter than 64 bytes and the same passphrase followed by a
zero byte have the same HMAC key block. -/
theorem hmacKey_zero_pad (p : Bytes) (h : p.length < 64) : hmacKey (p ++ [0]) = hmacKey p := by
  have h1 : ¬ p.length > 64 := by omega
  have h2 : ¬ p.length + 1 > 64 := by omega
  have h3 : 64 - p.length = (64 - (p.length + 1)) + 1 := by omega
  simp only [hmacKey, h1, h2, ↓reduceIte, List.length_append, List.length_singleton,
    List.append_assoc, List.singleton_append]
  rw [h3, List.replicate_succ]

/-- A passphrase longer than 64 bytes and its SHA-256 digest have the same
HMAC key block. -/
theorem hmacKey_digest (p : Bytes) (h : 64 < p.length) : hmacKey (sha256 p) = hmacKey p := by
  have h1 : p.length > 64 := h
  have h2 : ¬ (sha256 p).length > 64 := by rw [sha256_length]; decide
  simp only [hmacKey, h1, h2, ↓reduceIte]

theorem seal_eq (g : GCM) (nonce plain sealed : Bytes)
    (h : g.seal nonce plain [] = .ok sealed) :
    sealed = g.counterCrypt nonce plain ++ g.auth nonce (g.counterCrypt nonce plain) [] ∧
    plain.length ≤ gcmMaxPlaintext := by
  unfold GCM.seal at h
  split at h
  · cases h
  · split at h
    · cases h
    · rename_i h1 h2
      injection h with h
      exact ⟨h.symm, by omega⟩

theorem open_append (g : GCM) (hn : g.nonceSize = 12) (ht : g.tagSize = 16)
    (nonce ct tag : Bytes) (hl : nonce.length = 12) (htag : tag.length = 16)
    (hct : ct.length ≤ gcmMaxPlaintext) :
    g.open nonce (ct ++ tag) [] =
      if g.auth nonce ct [] = tag then .ok (g.counterCrypt nonce ct) else .error .errOpen := by
  have h1 : ¬ ct.length + 16 < 16 := by omega
  have h2 : ¬ gcmMaxPlaintext + 16 < ct.length + 16 := by omega
  simp only [GCM.open, hn, ht, hl, List.length_append, htag, h1, h2, Nat.add_sub_cancel,
    List.take_left', List.drop_left', ne_eq, not_true_eq_false, ↓reduceIte, Nat.reduceLT,
    ite_not]

/-- C2, as the code has it. A container is produced under `p1` from `plain`
with the drawn `salt` and `nonce`, and decrypted under `p2` (equal to `p1` or
not). Decryption fails with the authentication error, making no write and
leaving the file system untouched, exactly when the tag that GCM computes under
`deriveKey p2 salt` over the stored nonce and ciphertext differs from the
stored tag; when the two tags agree it goes on to write the counter-mode
decryption under the key of `p2`. -/
theorem wrong_passphrase_outcome (p1 p2 : Bytes) (filePath : Str)
    (plain salt nonce rest : Bytes) (w v : World)
    (hfile : w.fs.files filePath = some plain) (hread : w.fs.noRead filePath = false)
    (hs : salt.length = saltSize) (hn : nonce.length = nonceSize)
    (hent : w.entropy = salt ++ nonce ++ rest)
    (hok : (encryptFile p1 filePath w).1 = .ok ())
    (hcont : v.fs.files (filePath ++ ".enc".toList)
      = (encryptFile p1 filePath w).2.fs.files (filePath ++ ".enc".toList))
    (hvread : v.fs.noRead (filePath ++ ".enc".toList) = false) :
    decryptFile p2 (filePath ++ ".enc".toList) v =
      (if (keyGCM (deriveKey p2 salt)).auth nonce
            ((keyGCM (deriveKey p1 salt)).counterCrypt nonce plain) []
          = (keyGCM (deriveKey p1 salt)).auth nonce
            ((keyGCM (deriveKey p1 salt)).counterCrypt nonce plain) []
       then
        osWriteFile filePath
          ((keyGCM (deriveKey p2 salt)).counterCrypt nonce
            ((keyGCM (deriveKey p1 salt)).counterCrypt nonce plain))
          (openedWorld (filePath ++ ".enc".toList) v)
       else (.error .errOpen, openedWorld (filePath ++ ".enc".toList) v)) ∧
    (openedWorld (filePath ++ ".enc".toList) v).fs = v.fs ∧
    ∀ q, Call.writeFile q ∉
      [Call.readFile (filePath ++ ".enc".toList), Call.pbkdf2Key, Call.aesNewCipher,
        Call.cipherNewGCM, Call.gcmOpen] := by
  have hs' : salt.length = 16 := hs
  have hn' : nonce.length = 12 := hn
  have hrand : 28 ≤ w.entropy.length := by simp [hent, hs', hn']; omega
  have e1 : w.entropy.take 16 = salt := by
    rw [hent, List.append_assoc, List.take_append_of_le_length (by omega), ← hs',
      List.take_length]
  have e2 : (w.entropy.drop 16).take 12 = nonce := by
    simp [hent, hs', hn', List.take_append_eq_append_take, List.drop_append_eq_append_drop]
  obtain ⟨sealed, hseal, hwritten⟩ :=
    encryptFile_written p1 filePath plain w hfile hread hrand hok
  rw [e1, e2] at hseal hwritten
  obtain ⟨hsealed, hsize⟩ := seal_eq _ _ _ _ hseal
  rw [hwritten, hsealed] at hcont
  refine ⟨?_, rfl, by simp⟩
  rw [decryptFile_container p2 _ salt nonce _ v hs' hn' hcont hvread,
    open_append _ rfl rfl _ _ _ hn' (auth_length _ _ _ _)
      (by rw [counterCrypt_length]; exact hsize), trimSuffix_append]
  by_cases ht : (keyGCM (deriveKey p2 salt)).auth nonce
      ((keyGCM (deriveKey p1 salt)).counterCrypt nonce plain) []
    = (keyGCM (deriveKey p1 salt)).auth nonce
      ((keyGCM (deriveKey p1 salt)).counterCrypt nonce plain) []
  · rw [if_pos ht, if_pos ht]
  · rw [if_neg ht, if_neg ht]

theorem wrong_passphrase_outcome_witness :
    decryptFile wrongHorse (notesTxt ++ ".enc".toList) (containerWorld correctHorse) =
      (if (keyGCM (deriveKey wrongHorse (List.range 16))).auth
            [16, 17, 18, 19, 20, 21, 22, 23, 24, 25, 26, 27]
            ((keyGCM (deriveKey correctHorse (List.range 16))).counterCrypt
              [16, 17, 18, 19, 20, 21, 22, 23, 24, 25, 26, 27] helloWorld) []
          = (keyGCM (deriveKey correctHorse (List.range 16))).auth
            [16, 17, 18, 19, 20, 21, 22, 23, 24, 25, 26, 27]
            ((keyGCM (deriveKey correctHorse (List.range 16))).counterCrypt
              [16, 17, 18, 19, 20, 21, 22, 23, 24, 25, 26, 27] helloWorld) []
       then
        osWriteFile notesTxt
          ((keyGCM (deriveKey wrongHorse (List.range 16))).counterCrypt
            [16, 17, 18, 19, 20, 21, 22, 23, 24, 25, 26, 27]
            ((keyGCM (deriveKey correctHorse (List.range 16))).counterCrypt
              [16, 17, 18, 19, 20, 21, 22, 23, 24, 25, 26, 27] helloWorld))
          (openedWorld (notesTxt ++ ".enc".toList) (containerWorld correctHorse))
       else
        (.error .errOpen,
          openedWorld (notesTxt ++ ".enc".toList) (containerWorld correctHorse))) ∧
    (openedWorld (notesTxt ++ ".enc".toList) (containerWorld correctHorse)).fs
      = (containerWorld correctHorse).fs ∧
    ∀ q, Call.writeFile q ∉
      [Call.readFile (notesTxt ++ ".enc".toList), Call.pbkdf2Key, Call.aesNewCipher,
        Call.cipherNewGCM, Call.gcmOpen] :=
  wrong_passphrase_outcome correctHorse wrongHorse notesTxt helloWorld (List.range 16)
    [16, 17, 18, 19, 20, 21, 22, 23, 24, 25, 26, 27] [] sampleWorld
    (containerWorld correctHorse) (by decide) (by decide) (by decide) (by decide) (by decide)
    (encryptFile_ok correctHorse notesTxt helloWorld sampleWorld (by decide) (by decide)
      (by decide) (by decide) (by decide) (by decide))
    (by simp [containerWorld]) (by decide)

/-- Decrypting under a passphrase that derives the key of the passphrase of
encryption returns the plaintext. -/
theorem decrypt_encrypt_of_key_eq (p1 p2 : Bytes) (filePath : Str) (plain : Bytes)
    (w v : World)
    (hfile : w.fs.files filePath = some plain) (hread : w.fs.noRead filePath = false)
    (hrand : 28 ≤ w.entropy.length)
    (hkey : deriveKey p2 (w.entropy.take 16) = deriveKey p1 (w.entropy.take 16))
    (hcont : v.fs.files (filePath ++ ".enc".toList)
      = (encryptFile p1 filePath w).2.fs.files (filePath ++ ".enc".toList))
    (hvread : v.fs.noRead (filePath ++ ".enc".toList) = false)
    (hvwrite : v.fs.noWrite filePath = false) (hvquota : v.fs.quota filePath = none)
    (hok : (encryptFile p1 filePath w).1 = .ok ()) :
    (decryptFile p2 (filePath ++ ".enc".toList) v).1 = .ok () ∧
    (decryptFile p2 (filePath ++ ".enc".toList) v).2.fs.files filePath = some plain := by
  obtain ⟨ciphertext, hseal, hwritten⟩ :=
    encryptFile_written p1 filePath plain w hfile hread hrand hok
  rw [hwritten] at hcont
  have hopen := open_seal _ rfl rfl _ _ _ hseal
  rw [decryptFile_container p2 _ (w.entropy.take 16) ((w.entropy.drop 16).take 12)
    ciphertext v (by simp; omega) (by simp; omega) hcont hvread, hkey, hopen]
  simp only [trimSuffix_append]
  rw [osWriteFile_ok _ _ _ (by simpa [openedWorld] using hvwrite)
    (by simpa [openedWorld] using hvquota)]
  exact ⟨rfl, put_files_same _ _ _⟩

/-- C2 fails as stated, at two pairs of passphrases. The passphrases `"a"` and
`"a\x00"` differ, yet the container that encryption under `"a"` produces from
`"hello world"` decrypts under `"a\x00"` without error, and the plaintext is
written. Likewise the passphrase of 65 letters `a` and its SHA-256 digest, a
passphrase of 32 non-zero bytes, differ, and the container produced under the
first decrypts under the second. -/
theorem wrong_passphrase_counterexample :
    (([97] : Bytes) ≠ [97, 0] ∧
      (encryptFile [97] notesTxt sampleWorld).1 = .ok () ∧
      (decryptFile [97, 0] (notesTxt ++ ".enc".toList) (containerWorld [97])).1 = .ok () ∧
      (decryptFile [97, 0] (notesTxt ++ ".enc".toList) (containerWorld [97])).2.fs.files
        notesTxt = some helloWorld) ∧
    (longPassphrase ≠ digestPassphrase ∧
      (∀ b ∈ digestPassphrase, b ≠ 0) ∧
      (encryptFile longPassphrase notesTxt sampleWorld).1 = .ok () ∧
      (decryptFile digestPassphrase (notesTxt ++ ".enc".toList)
        (containerWorld longPassphrase)).1 = .ok () ∧
      (decryptFile digestPassphrase (notesTxt ++ ".enc".toList)
        (containerWorld longPassphrase)).2.fs.files notesTxt = some helloWorld) :=
  have hok : (encryptFile [97] notesTxt sampleWorld).1 = .ok () :=
    encryptFile_ok [97] notesTxt helloWorld sampleWorld (by decide) (by decide)
      (by decide) (by decide) (by decide) (by decide)
  have hkey : hmacKey [97, 0] = hmacKey [97] := by decide
  have hok' : (encryptFile longPassphrase notesTxt sampleWorld).1 = .ok () :=
    encryptFile_ok longPassphrase notesTxt helloWorld sampleWorld (by decide) (by decide)
      (by decide) (by decide) (by decide) (by decide)
  have hkey' : hmacKey digestPassphrase = hmacKey longPassphrase := by decide!
  ⟨⟨by decide, hok,
      decrypt_encrypt_of_key_eq [97] [97, 0] notesTxt helloWorld sampleWorld
        (containerWorld [97]) (by decide) (by decide) (by decide) (deriveKey_congr _ _ _ hkey)
        (by simp [containerWorld]) (by decide) (by decide) (by decide) hok⟩,
    ⟨by decide, by decide, hok',
      decrypt_encrypt_of_key_eq longPassphrase digestPassphrase notesTxt helloWorld sampleWorld
        (containerWorld longPassphrase) (by decide) (by decide) (by decide)
        (deriveKey_congr _ _ _ hkey') (by simp [containerWorld]) (by decide) (by decide)
        (by decide) hok'⟩⟩

/-! ## `parseSize` -/

theorem decimalFold_ge (ds : Str) (acc : Nat) :
    acc ≤ ds.foldl (fun a c => a * 10 + (c.toNat - 48)) acc := by
  induction ds generalizing acc with
  | nil => simp
  | cons c cs ih =>
    simp only [List.foldl_cons]
    exact le_trans (by omega) (ih _)

theorem parseUintLoop_digits (ds : Str) (acc : Nat)
    (hd : ∀ c ∈ ds, 48 ≤ c.toNat ∧ c.toNat ≤ 57)
    (hfit : ds.foldl (fun a c => a * 10 + (c.toNat - 48)) acc < 2 ^ 64) :
    parseUintLoop ds acc = (ds.foldl (fun a c => a * 10 + (c.toNat - 48)) acc, none) := by
  induction ds generalizing acc with
  | nil => simp [parseUintLoop]
  | cons c cs ih =>
    simp only [List.foldl_cons] at hfit ⊢
    have hc := hd c (by simp)
    have hge := decimalFold_ge cs (acc * 10 + (c.toNat - 48))
    have h64 : (2 : Nat) ^ 64 = 18446744073709551616 := by norm_num
    rw [h64] at hfit
    have h1 : ¬ acc ≥ (2 ^ 64 - 1) / 10 + 1 := by
      rw [h64]; omega
    have h2 : ¬ acc * 10 + (c.toNat - 48) > 2 ^ 64 - 1 := by
      rw [h64]; omega
    rw [parseUintLoop]
    simp only [hc, and_self, ↓reduceIte, h1, h2]
    exact ih _ (fun x hx => hd x (by simp [hx])) (by rw [h64]; exact hfit)

theorem strconvParseUint_digits (ds : Str) (hd : isDigits ds) (hfit : decimalValue ds < 2 ^ 64) :
    strconvParseUint ds = (decimalValue ds, none) := by
  simp only [strconvParseUint, hd.1, ↓reduceIte]
  exact parseUintLoop_digits ds 0 hd.2 hfit

theorem strconvParseInt_decimal (sign digits : Str)
    (hsign : sign = [] ∨ sign = ['+'] ∨ sign = ['-']) (hd : isDigits digits)
    (hlo : -(2 ^ 63) ≤ signedValue sign digits) (hhi : signedValue sign digits < 2 ^ 63) :
    strconvParseInt (sign ++ digits) = (signedValue sign digits, none) := by
  have h63 : (2 : Int) ^ 63 = 9223372036854775808 := by norm_num
  have h63n : (2 : Nat) ^ 63 = 9223372036854775808 := by norm_num
  have h64 : (2 : Nat) ^ 64 = 18446744073709551616 := by norm_num
  rw [h63] at hlo hhi
  obtain ⟨c, cs, hcs⟩ := List.exists_cons_of_ne_nil hd.1
  have hc := hd.2 c (by simp [hcs])
  rcases hsign with rfl | rfl | rfl
  · -- no sign
    have hv : signedValue [] digits = (decimalValue digits : Int) := by simp [signedValue]
    rw [hv] at hlo hhi ⊢
    have hfit : decimalValue digits < 2 ^ 64 := by rw [h64]; omega
    have hplus : c ≠ '+' := by rintro rfl; simp at hc
    have hminus : c ≠ '-' := by rintro rfl; simp at hc
    have hu := strconvParseUint_digits digits hd hfit
    subst hcs
    simp only [List.nil_append, strconvParseInt, hplus, hminus, or_self, ↓reduceIte, hu]
    have h1 : ¬ decimalValue (c :: cs) ≥ 2 ^ 63 := by rw [h63n]; omega
    simp [h1]
    intro _
    omega
  · -- plus
    have hv : signedValue ['+'] digits = (decimalValue digits : Int) := by simp [signedValue]
    rw [hv] at hlo hhi ⊢
    have hfit : decimalValue digits < 2 ^ 64 := by rw [h64]; omega
    have hu := strconvParseUint_digits digits hd hfit
    have h1 : ¬ decimalValue digits ≥ 2 ^ 63 := by rw [h63n]; omega
    simp [strconvParseInt, hu, h1]
    omega
  · -- minus
    have hv : signedValue ['-'] digits = -(decimalValue digits : Int) := by simp [signedValue]
    rw [hv] at hlo hhi ⊢
    have hfit : decimalValue digits < 2 ^ 64 := by rw [h64]; omega
    have hu := strconvParseUint_digits digits hd hfit
    have h1 : ¬ decimalValue digits > 2 ^ 63 := by rw [h63n]; omega
    simp [strconvParseInt, hu, h1]
    omega

theorem wrapInt64_of_fits (x : Int) (hlo : -(2 ^ 63) ≤ x) (hhi : x < 2 ^ 63) :
    wrapInt64 x = x := by
  have h63 : (2 : Int) ^ 63 = 9223372036854775808 := by norm_num
  have h64 : (2 : Int) ^ 64 = 18446744073709551616 := by norm_num
  unfold wrapInt64
  rw [h63] at hlo hhi ⊢
  rw [h64]
  omega

theorem hasSuffix_eq (s suffix : Str) (h : hasSuffix s suffix = true) :
    s.drop (s.length - suffix.length) = suffix := by
  simp only [hasSuffix, Bool.and_eq_true, decide_eq_true_eq] at h
  exact h.2

/-- At most one of the three suffixes ends a given string. -/
theorem suffix_unique (s : Str) (a b : Str × Int) (ha : a ∈ suffixes) (hb : b ∈ suffixes)
    (hsa : hasSuffix s a.1 = true) (hsb : hasSuffix s b.1 = true) : a = b := by
  have ea := hasSuffix_eq s a.1 hsa
  have eb := hasSuffix_eq s b.1 hsb
  simp only [suffixes, List.mem_cons, List.mem_singleton, List.not_mem_nil, or_false] at ha hb
  rcases ha with rfl | rfl | rfl <;> rcases hb with rfl | rfl | rfl <;>
    first
    | rfl
    | (exfalso
       simp only [String.toList, List.length_cons, List.length_nil] at ea eb
       rw [ea] at eb
       revert eb
       decide)

theorem parseSize_of_suffix (order : List (Str × Int)) (s : Str) (a : Str × Int)
    (hmem : a ∈ order) (hs : hasSuffix s a.1 = true)
    (huniq : ∀ b ∈ order, hasSuffix s b.1 = true → b = a) :
    parseSize order s =
      (wrapInt64 ((strconvParseInt (trimSuffix s a.1)).1 * a.2),
        (strconvParseInt (trimSuffix s a.1)).2) := by
  induction order with
  | nil => simp at hmem
  | cons b rest ih =>
    obtain ⟨suffix, factor⟩ := b
    by_cases hb : hasSuffix s suffix = true
    · have := huniq (suffix, factor) (by simp) hb
      subst this
      simp [parseSize, hb]
    · have hne : a ≠ (suffix, factor) := by
        rintro rfl; exact hb hs
      have hmem' : a ∈ rest := by
        rcases List.mem_cons.mp hmem with h | h
        · exact absurd h hne
        · exact h
      simp only [parseSize, hb, Bool.false_eq_true, ↓reduceIte]
      exact ih hmem' (fun b hb' hsb => huniq b (List.mem_cons_of_mem _ hb') hsb)

theorem parseSize_of_no_suffix (order : List (Str × Int)) (s : Str)
    (h : ∀ b ∈ order, hasSuffix s b.1 = false) :
    parseSize order s = strconvParseInt s := by
  induction order with
  | nil => simp [parseSize]
  | cons b rest ih =>
    obtain ⟨suffix, factor⟩ := b
    have hb := h (suffix, factor) (by simp)
    simp only at hb
    simp only [parseSize, hb, Bool.false_eq_true, ↓reduceIte]
    exact ih (fun b hb' => h b (List.mem_cons_of_mem _ hb'))

/-- The result of `parseSize` does not depend on the order of the loop. -/
theorem parseSize_order (order : List (Str × Int)) (hperm : order.Perm suffixes) (s : Str) :
    parseSize order s = parseSize suffixes s := by
  by_cases h : ∃ a ∈ suffixes, hasSuffix s a.1 = true
  · obtain ⟨a, ha, hs⟩ := h
    rw [parseSize_of_suffix order s a (hperm.mem_iff.mpr ha) hs
        (fun b hb hsb => suffix_unique s b a (hperm.mem_iff.mp hb) ha hsb hs),
      parseSize_of_suffix suffixes s a ha hs
        (fun b hb hsb => suffix_unique s b a hb ha hsb hs)]
  · have h' : ∀ b ∈ suffixes, hasSuffix s b.1 = false := by
      intro b hb
      by_contra hc
      exact h ⟨b, hb, by simpa using hc⟩
    rw [parseSize_of_no_suffix order s (fun b hb => h' b (hperm.mem_iff.mp hb)),
      parseSize_of_no_suffix suffixes s h']

theorem parseSize_append (order : List (Str × Int)) (hperm : order.Perm suffixes)
    (n : Str) (a : Str × Int) (ha : a ∈ suffixes) :
    parseSize order (n ++ a.1) =
      (wrapInt64 ((strconvParseInt n).1 * a.2), (strconvParseInt n).2) := by
  have hs := hasSuffix_append n a.1
  rw [parseSize_of_suffix order (n ++ a.1) a (hperm.mem_iff.mpr ha) hs
    (fun b hb hsb => suffix_unique _ b a (hperm.mem_iff.mp hb) ha hsb hs), trimSuffix_append]

theorem hasSuffix_digits (sign digits : Str) (hd : isDigits digits) (a : Str × Int)
    (ha : a ∈ suffixes) : hasSuffix (sign ++ digits) a.1 = false := by
  by_contra hc
  have hs : hasSuffix (sign ++ digits) a.1 = true := by simpa using hc
  have he := hasSuffix_eq _ _ hs
  have hlast : (sign ++ digits).getLast? = some 'B' := by
    rw [← List.take_append_drop ((sign ++ digits).length - a.1.length) (sign ++ digits), he]
    simp only [suffixes, List.mem_cons, List.mem_singleton, List.not_mem_nil, or_false] at ha
    rcases ha with rfl | rfl | rfl <;> simp [List.getLast?_append]
  obtain ⟨c, cs, hcs⟩ := List.exists_cons_of_ne_nil hd.1
  have hne : digits ≠ [] := hd.1
  rw [List.getLast?_append_of_ne_nil _ hne, List.getLast?_eq_getLast _ hne] at hlast
  have hmem := List.getLast_mem hne
  injection hlast with hlast
  rw [hlast] at hmem
  have := hd.2 'B' hmem
  simp at this

/-- C10, as the code has it. Let `sign` be empty, `+` or `-`, and `digits` a
non-empty string of decimal digits whose signed value `v` fits in a signed
64-bit integer; let `order` be any order in which the loop may visit the three
suffixes. Then `parseSize` of the string alone returns `v` with no error, and
with the suffix `KB`, `MB` or `GB` appended it returns `v × 1024`, `v × 1024²`
or `v × 1024³` with no error whenever that product fits in a signed 64-bit
integer. A string that ends in none of the suffixes is parsed by `ParseInt` as
it stands; the result is the same for every order; and at most one of the
three suffixes ends a given string. -/
theorem parseSize_spec (order : List (Str × Int)) (hperm : order.Perm suffixes)
    (sign digits : Str) (hsign : sign = [] ∨ sign = ['+'] ∨ sign = ['-'])
    (hd : isDigits digits)
    (hlo : -(2 ^ 63) ≤ signedValue sign digits) (hhi : signedValue sign digits < 2 ^ 63) :
    parseSize order (sign ++ digits) = (signedValue sign digits, none) ∧
    (-(2 ^ 63) ≤ signedValue sign digits * 1024 → signedValue sign digits * 1024 < 2 ^ 63 →
      parseSize order (sign ++ digits ++ "KB".toList)
        = (signedValue sign digits * 1024, none)) ∧
    (-(2 ^ 63) ≤ signedValue sign digits * (1024 * 1024) →
      signedValue sign digits * (1024 * 1024) < 2 ^ 63 →
      parseSize order (sign ++ digits ++ "MB".toList)
        = (signedValue sign digits * (1024 * 1024), none)) ∧
    (-(2 ^ 63) ≤ signedValue sign digits * (1024 * 1024 * 1024) →
      signedValue sign digits * (1024 * 1024 * 1024) < 2 ^ 63 →
      parseSize order (sign ++ digits ++ "GB".toList)
        = (signedValue sign digits * (1024 * 1024 * 1024), none)) ∧
    (∀ s, (∀ a ∈ suffixes, hasSuffix s a.1 = false) → parseSize order s = strconvParseInt s) ∧
    (∀ s, parseSize order s = parseSize suffixes s) ∧
    (∀ s a b, a ∈ suffixes → b ∈ suffixes → hasSuffix s a.1 = true →
      hasSuffix s b.1 = true → a = b) := by
  have hp := strconvParseInt_decimal sign digits hsign hd hlo hhi
  have hnone : ∀ s, (∀ a ∈ suffixes, hasSuffix s a.1 = false) →
      parseSize order s = strconvParseInt s := fun s h =>
    parseSize_of_no_suffix order s (fun b hb => h b (hperm.mem_iff.mp hb))
  have happ : ∀ a ∈ suffixes, -(2 ^ 63) ≤ signedValue sign digits * a.2 →
      signedValue sign digits * a.2 < 2 ^ 63 →
      parseSize order (sign ++ digits ++ a.1) = (signedValue sign digits * a.2, none) := by
    intro a ha h1 h2
    rw [parseSize_append order hperm (sign ++ digits) a ha, hp]
    simp only [wrapInt64_of_fits _ h1 h2]
  refine ⟨?_, ?_, ?_, ?_, hnone, parseSize_order order hperm, ?_⟩
  · rw [hnone _ (fun a ha => hasSuffix_digits sign digits hd a ha), hp]
  · exact happ ("KB".toList, 1024) (by simp [suffixes])
  · exact happ ("MB".toList, 1024 * 1024) (by simp [suffixes])
  · exact happ ("GB".toList, 1024 * 1024 * 1024) (by simp [suffixes])
  · intro s a b ha hb hsa hsb
    exact suffix_unique s a b ha hb hsa hsb

theorem parseSize_spec_witness :
    parseSize [("GB".toList, 1024 * 1024 * 1024), ("KB".toList, 1024), ("MB".toList, 1024 * 1024)]
        (['-'] ++ ['5'] ++ "MB".toList)
      = (signedValue ['-'] ['5'] * (1024 * 1024), none) :=
  (parseSize_spec
    [("GB".toList, 1024 * 1024 * 1024), ("KB".toList, 1024), ("MB".toList, 1024 * 1024)]
    (by decide) ['-'] ['5'] (by decide) (by simp [isDigits]) (by decide) (by decide)).2.2.1
    (by decide) (by decide)

/-- C10 fails as stated: `9007199254740992` fits in a signed 64-bit integer,
and `parseSize` of `9007199254740992KB` returns `-9223372036854775808` with no
error, not `9007199254740992 × 1024`. -/
theorem parseSize_counterexample :
    strconvParseInt "9007199254740992".toList = (9007199254740992, none) ∧
    parseSize suffixes ("9007199254740992".toList ++ "KB".toList)
      = (-9223372036854775808, none) ∧
    (-9223372036854775808 : Int) ≠ 9007199254740992 * 1024 := by
  decide

/-! ## Splitting and joining -/

theorem digitChar_inj : ∀ a < 10, ∀ b < 10, Char.ofNat (48 + a) = Char.ofNat (48 + b) → a = b := by
  decide

theorem itoaRev_ne_nil (fuel n : Nat) : itoaRev (fuel + 1) n ≠ [] := by
  rw [itoaRev]
  split <;> simp

theorem itoaRev_inj (n : Nat) : ∀ m fuel fuel', n < fuel → m < fuel' →
    itoaRev fuel n = itoaRev fuel' m → n = m := by
  induction n using Nat.strong_induction_on with
  | _ n ih =>
    intro m fuel fuel' hn hm h
    obtain ⟨fuel, rfl⟩ : ∃ k, fuel = k + 1 := ⟨fuel - 1, by omega⟩
    obtain ⟨fuel', rfl⟩ : ∃ k, fuel' = k + 1 := ⟨fuel' - 1, by omega⟩
    rw [itoaRev, itoaRev] at h
    by_cases h1 : n < 10 <;> by_cases h2 : m < 10
    · simp only [h1, h2, ↓reduceIte, List.cons.injEq, and_true] at h
      exact digitChar_inj n h1 m h2 h
    · simp only [h1, h2, ↓reduceIte, List.cons.injEq] at h
      obtain ⟨fuel', rfl⟩ : ∃ k, fuel' = k + 1 := ⟨fuel' - 1, by omega⟩
      exact absurd h.2.symm (itoaRev_ne_nil _ _)
    · simp only [h1, h2, ↓reduceIte, List.cons.injEq] at h
      obtain ⟨fuel, rfl⟩ : ∃ k, fuel = k + 1 := ⟨fuel - 1, by omega⟩
      exact absurd h.2 (itoaRev_ne_nil _ _)
    · simp only [h1, h2, ↓reduceIte, List.cons.injEq] at h
      have hd := digitChar_inj (n % 10) (Nat.mod_lt _ (by decide)) (m % 10)
        (Nat.mod_lt _ (by decide)) h.1
      have hq := ih (n / 10) (by omega) (m / 10) fuel fuel' (by omega) (by omega) h.2
      omega

theorem itoa_inj (n m : Nat) (h : itoa n = itoa m) : n = m := by
  unfold itoa at h
  exact itoaRev_inj n m _ _ (by omega) (by omega) (List.reverse_injective h)

theorem partPath_inj (f : Str) (i j : Nat) (h : partPath f i = partPath f j) : i = j := by
  unfold partPath at h
  exact itoa_inj i j (List.append_cancel_left h)

theorem partPath_ne (f : Str) (i : Nat) : partPath f i ≠ f := by
  intro h
  have := congrArg List.length h
  simp [partPath] at this

theorem lt_partCount (len size j : Nat) (hs : 0 < size) :
    j < partCount len size ↔ j * size < len := by
  unfold partCount
  rw [Nat.lt_iff_add_one_le, Nat.le_div_iff_mul_le hs]
  have : (j + 1) * size = j * size + size := by ring
  rw [this]
  omega

theorem chunk_length (D : Bytes) (m i : Nat) :
    (chunk D m i).length = min m (D.length - i * m) := by
  simp [chunk]

theorem putChunks_other (f : Str) (D : Bytes) (m : Nat) (d : Nat) :
    ∀ (j : Nat) (fs : FS) (p : Str), (∀ i, j ≤ i → i < j + d → p ≠ partPath f i) →
      (putChunks f D m j d fs).files p = fs.files p := by
  induction d with
  | zero => intro j fs p _; rfl
  | succ d ih =>
    intro j fs p hp
    rw [putChunks, ih (j + 1) _ p (fun i h1 h2 => hp i (by omega) (by omega))]
    have := hp j (by omega) (by omega)
    simp [FS.put, Function.update, this]

theorem putChunks_part (f : Str) (D : Bytes) (m : Nat) (d : Nat) :
    ∀ (j : Nat) (fs : FS) (i : Nat), j ≤ i → i < j + d →
      (putChunks f D m j d fs).files (partPath f i) = some (chunk D m i) := by
  induction d with
  | zero => intro j fs i h1 h2; omega
  | succ d ih =>
    intro j fs i h1 h2
    rw [putChunks]
    by_cases hij : i = j
    · subst hij
      rw [putChunks_other f D m d (i + 1) _ _ (fun i' h1' _ h =>
        absurd (partPath_inj f i i' h) (by omega))]
      exact put_files_same _ _ _
    · exact ih (j + 1) _ i (by omega) (by omega)

theorem putChunks_faultFree (f : Str) (D : Bytes) (m : Nat) (d : Nat) :
    ∀ (j : Nat) (fs : FS), fs.faultFree → (putChunks f D m j d fs).faultFree := by
  induction d with
  | zero => intro j fs h; exact h
  | succ d ih =>
    intro j fs h
    rw [putChunks]
    exact ih (j + 1) _ (fun p => h p)

theorem splitLoop_spec (f : Str) (D : Bytes) (m : Nat) (hm : 0 < m) (d : Nat) :
    ∀ (j fuel : Nat) (w : World), j + d = partCount D.length m →
      w.fs.files f = some D → w.fs.faultFree → d < fuel →
      ∃ w', splitLoop f m fuel (min (j * m) D.length) j w = some (.ok (), w') ∧
        w'.fs = putChunks f D m j d w.fs := by
  induction d with
  | zero =>
    intro j fuel w hj hf _ hfuel
    obtain ⟨fuel, rfl⟩ : ∃ k, fuel = k + 1 := ⟨fuel - 1, by omega⟩
    have hge : D.length ≤ j * m := by
      have := (lt_partCount D.length m j hm).not
      simp only [not_lt] at this
      exact this.mp (by omega)
    have hread : (D.drop (min (j * m) D.length)).take m = [] := by
      rw [Nat.min_eq_right hge]; simp
    refine ⟨w.call (.readHandle f), ?_, rfl⟩
    simp [splitLoop, fileRead, hf, hread]
  | succ d ih =>
    intro j fuel w hj hf hfault hfuel
    obtain ⟨fuel, rfl⟩ : ∃ k, fuel = k + 1 := ⟨fuel - 1, by omega⟩
    have hlt : j * m < D.length := (lt_partCount D.length m j hm).mp (by omega)
    have hmin : min (j * m) D.length = j * m := Nat.min_eq_left (by omega)
    have hread : (D.drop (min (j * m) D.length)).take m = chunk D m j := by
      rw [hmin]; rfl
    have hlen : (chunk D m j).length = min m (D.length - j * m) := chunk_length D m j
    have hne : (chunk D m j).length ≠ 0 := by rw [hlen]; omega
    have hoff : min (j * m) D.length + (chunk D m j).length = min ((j + 1) * m) D.length := by
      have : (j + 1) * m = j * m + m := by ring
      rw [hlen, hmin, this]; omega
    obtain ⟨hr, hw, hq⟩ := hfault (partPath f j)
    have hput : ((w.fs.put (partPath f j) (chunk D m j)).files f) = some D := by
      simp [FS.put, Function.update, (partPath_ne f j).symm, hf]
    obtain ⟨w', hw', hfs⟩ := ih (j + 1) fuel
      { fs := w.fs.put (partPath f j) (chunk D m j), entropy := w.entropy,
        log := w.log ++ [.readHandle f] ++ [.writeFile (partPath f j)] }
      (by omega) hput (fun p => hfault p) (by omega)
    refine ⟨w', ?_, ?_⟩
    · rw [splitLoop]
      simp only [fileRead, hf, hread, hne, ↓reduceIte]
      have hwrite := osWriteFile_ok (partPath f j) (chunk D m j) (w.call (.readHandle f))
        (by simpa [World.call] using hw) (by simpa [World.call] using hq)
      simp only [partPath, World.call] at hwrite
      simp only [World.call, hwrite, hoff]
      exact hw'
    · rw [hfs, putChunks]

theorem osReadFile_ok (p : Str) (d : Bytes) (w : World) (hr : w.fs.noRead p = false)
    (hf : w.fs.files p = some d) : osReadFile p w = (.ok d, w.call (.readFile p)) := by
  simp [osReadFile, hr, hf]

theorem osReadFile_missing (p : Str) (w : World) (hr : w.fs.noRead p = false)
    (hf : w.fs.files p = none) :
    osReadFile p w = (.error (.pathError "open".toList p true), w.call (.readFile p)) := by
  simp [osReadFile, hr, hf]

theorem take_succ_chunk (D : Bytes) (m j : Nat) :
    D.take (j * m) ++ chunk D m j = D.take ((j + 1) * m) := by
  have : (j + 1) * m = j * m + m := by ring
  rw [this, List.take_add]
  rfl

theorem joinLoop_spec (f : Str) (D : Bytes) (m : Nat) (hm : 0 < m) (d : Nat) :
    ∀ (j fuel : Nat) (w : World), j + d = partCount D.length m →
      w.fs.files f = some (D.take (j * m)) →
      (∀ i, i < partCount D.length m → w.fs.files (partPath f i) = some (chunk D m i)) →
      w.fs.files (partPath f (partCount D.length m)) = none →
      w.fs.faultFree → d < fuel →
      ∃ w', joinLoop f fuel j w = some (.ok (), w') ∧ w'.fs.files f = some D ∧
        ∀ p, p ≠ f → w'.fs.files p = w.fs.files p := by
  induction d with
  | zero =>
    intro j fuel w hj hf _ hnone hfault hfuel
    obtain ⟨fuel, rfl⟩ : ∃ k, fuel = k + 1 := ⟨fuel - 1, by omega⟩
    have hjk : j = partCount D.length m := by omega
    have hge : D.length ≤ j * m := by
      have := (lt_partCount D.length m j hm).not
      simp only [not_lt] at this
      exact this.mp (by omega)
    obtain ⟨hr, _, _⟩ := hfault (partPath f j)
    rw [← hjk] at hnone
    refine ⟨w.call (.readFile (partPath f j)), ?_, ?_, fun p _ => rfl⟩
    · rw [joinLoop]
      have : osReadFile (f ++ ".part".toList ++ itoa j) w
          = (.error (.pathError "open".toList (partPath f j) true),
              w.call (.readFile (partPath f j))) :=
        osReadFile_missing (partPath f j) w hr hnone
      rw [this]
      simp [osIsNotExist]
    · show w.fs.files f = some D
      rw [hf, List.take_of_length_le hge]
  | succ d ih =>
    intro j fuel w hj hf hparts hnone hfault hfuel
    obtain ⟨fuel, rfl⟩ : ∃ k, fuel = k + 1 := ⟨fuel - 1, by omega⟩
    have hjk : j < partCount D.length m := by omega
    obtain ⟨hr, _, _⟩ := hfault (partPath f j)
    obtain ⟨_, _, hq⟩ := hfault f
    have hpart := hparts j hjk
    have hread : osReadFile (f ++ ".part".toList ++ itoa j) w
        = (.ok (chunk D m j), w.call (.readFile (partPath f j))) :=
      osReadFile_ok (partPath f j) _ w hr hpart
    have hwrite : fileWrite f (chunk D m j) (w.call (.readFile (partPath f j)))
        = (.ok (), { fs := w.fs.put f (D.take ((j + 1) * m)), entropy := w.entropy,
                     log := w.log ++ [.readFile (partPath f j)] ++ [.writeHandle f] }) := by
      have hq' : (w.call (.readFile (partPath f j))).fs.quota f = none := hq
      have hf' : (w.call (.readFile (partPath f j))).fs.files f = some (D.take (j * m)) := hf
      simp only [fileWrite, hq', hf', Option.getD_some, take_succ_chunk]
      rfl
    have hother : ∀ p, p ≠ f →
        (w.fs.put f (D.take ((j + 1) * m))).files p = w.fs.files p := by
      intro p hp
      simp [FS.put, Function.update, hp]
    obtain ⟨w', hw', hfD, hrest⟩ := ih (j + 1) fuel
      { fs := w.fs.put f (D.take ((j + 1) * m)), entropy := w.entropy,
        log := w.log ++ [.readFile (partPath f j)] ++ [.writeHandle f] }
      (by omega) (put_files_same _ _ _)
      (fun i hi => by rw [hother _ (partPath_ne f i)]; exact hparts i hi)
      (by rw [hother _ (partPath_ne f _)]; exact hnone)
      (fun p => hfault p) (by omega)
    refine ⟨w', ?_, hfD, fun p hp => ?_⟩
    · rw [joinLoop, hread]
      simp only [hwrite]
      exact hw'
    · rw [hrest p hp, hother p hp]

theorem flatten_chunks (D : Bytes) (m : Nat) (k : Nat) :
    ((List.range k).map (chunk D m)).flatten = D.take (k * m) := by
  induction k with
  | zero => simp
  | succ k ih =>
    rw [List.range_succ, List.map_append, List.flatten_append, ih]
    simp only [List.map_cons, List.map_nil, List.flatten_cons, List.flatten_nil,
      List.append_nil]
    exact take_succ_chunk D m k

theorem filepathExt_part0 (f : Str) :
    filepathExt (partPath f 0) = ".part0".toList := by
  have h0 : itoa 0 = ['0'] := by decide
  simp [filepathExt, partPath, h0, extLoop]

theorem trimSuffix_part0 (f : Str) :
    trimSuffix (partPath f 0) (filepathExt (partPath f 0)) = f := by
  rw [filepathExt_part0]
  have h0 : itoa 0 = ['0'] := by decide
  have : partPath f 0 = f ++ ".part0".toList := by
    simp [partPath, h0]
  rw [this, trimSuffix_append]

/-- A buffer size above the bound of the runtime makes `splitFile` panic
right after opening the input, before any part is written. -/
theorem splitFile_makeslice_panic (f : Str) (data : Bytes) (maxSize : Int) (avail fuel : Nat)
    (w : World) (hfile : w.fs.files f = some data) (hread : w.fs.noRead f = false)
    (hbig : (maxAlloc : Int) < maxSize) :
    splitFile f maxSize avail fuel w
      = some (.error (.panicked "runtime error: makeslice: len out of range"),
          w.call (.openFile f)) := by
  have h : maxSize < 0 ∨ maxSize > (maxAlloc : Int) := Or.inr hbig
  simp [splitFile, osOpen, hread, hfile, makeBytes, h]

/-- The base name `joinFiles` derives drops whatever follows the last dot of
its argument, a part number or not: from `a.txt` it is `a`. -/
theorem joinFiles_base_example :
    trimSuffix "a.txt".toList (filepathExt "a.txt".toList) = "a".toList := by
  decide

/-- C9. Split and join. The file `f` holds `data`, `maxSize` is positive and a
buffer of that size can be allocated, no read or write fails, no file
`f.partK` exists beforehand, and the loops are given more iterations than
there are parts, `k = ceil(len(data) / maxSize)`. Then `splitFile` returns no
error, leaves `f` as it is and writes exactly the files `f.part0` to `f.part(k-1)`, part `i` holding
chunk `i` of `data`: every part but the last has exactly `maxSize` bytes, the
last is non-empty and has at most `maxSize` bytes, and the parts concatenated
in increasing order are `data`. After it, in any state `v` of the world that
holds the parts as `splitFile` left them, whatever `f` holds there or whether
it exists at all, `joinFiles` on `f.part0` returns no error, leaves in `f` the
concatenation of the parts in increasing order, which is `data`, and changes
no other file. -/
theorem split_join_roundtrip (f : Str) (data : Bytes) (maxSize : Int) (avail fuel : Nat)
    (w : World)
    (hfile : w.fs.files f = some data) (hpos : 0 < maxSize)
    (halloc : maxSize ≤ (maxAlloc : Int)) (havail : maxSize.toNat ≤ avail)
    (hfault : w.fs.faultFree)
    (hfresh : ∀ K, w.fs.files (partPath f K) = none)
    (hfuel : partCount data.length maxSize.toNat < fuel) :
    ∃ w1, splitFile f maxSize avail fuel w = some (.ok (), w1) ∧
      w1.fs.faultFree ∧
      w1.fs.files f = some data ∧
      (∀ i, i < partCount data.length maxSize.toNat →
        w1.fs.files (partPath f i) = some (chunk data maxSize.toNat i)) ∧
      (∀ p, (∀ i, i < partCount data.length maxSize.toNat → p ≠ partPath f i) →
        w1.fs.files p = w.fs.files p) ∧
      (∀ i, i + 1 < partCount data.length maxSize.toNat →
        (chunk data maxSize.toNat i).length = maxSize.toNat) ∧
      (0 < partCount data.length maxSize.toNat →
        0 < (chunk data maxSize.toNat (partCount data.length maxSize.toNat - 1)).length ∧
        (chunk data maxSize.toNat (partCount data.length maxSize.toNat - 1)).length
          ≤ maxSize.toNat) ∧
      ((List.range (partCount data.length maxSize.toNat)).map
        (chunk data maxSize.toNat)).flatten = data ∧
      ∀ v : World, v.fs.faultFree →
        (∀ K, v.fs.files (partPath f K) = w1.fs.files (partPath f K)) →
        ∃ w2, joinFiles (partPath f 0) fuel v = some (.ok (), w2) ∧
          w2.fs.files f = some (((List.range (partCount data.length maxSize.toNat)).map
            (chunk data maxSize.toNat)).flatten) ∧
          w2.fs.files f = some data ∧
          ∀ p, p ≠ f → w2.fs.files p = v.fs.files p := by
  obtain ⟨m, hm⟩ : ∃ m, maxSize.toNat = m := ⟨_, rfl⟩
  have hmpos : 0 < m := by omega
  rw [hm] at hfuel havail ⊢
  obtain ⟨k, hk⟩ : ∃ k, partCount data.length m = k := ⟨_, rfl⟩
  rw [hk] at hfuel ⊢
  have hkm : data.length ≤ k * m := by
    have := (lt_partCount data.length m k hmpos).not
    simp only [not_lt] at this
    exact this.mp (by omega)
  obtain ⟨hr, _, _⟩ := hfault f
  obtain ⟨w1, hw1, hfs1⟩ := splitLoop_spec f data m hmpos k 0 fuel (w.call (.openFile f))
    (by omega) hfile hfault (by omega)
  simp only [Nat.zero_mul, Nat.zero_min] at hw1
  have hparts : ∀ i, i < k → w1.fs.files (partPath f i) = some (chunk data m i) := by
    intro i hi
    rw [hfs1]
    exact putChunks_part f data m k 0 _ i (by omega) (by omega)
  have hothers : ∀ p, (∀ i, i < k → p ≠ partPath f i) → w1.fs.files p = w.fs.files p := by
    intro p hp
    rw [hfs1]
    exact putChunks_other f data m k 0 _ p (fun i _ hi => hp i (by omega))
  have hfault1 : w1.fs.faultFree := by
    rw [hfs1]
    exact putChunks_faultFree f data m k 0 _ hfault
  have hflat : ((List.range k).map (chunk data m)).flatten = data := by
    rw [flatten_chunks, List.take_of_length_le hkm]
  have hkeep : w1.fs.files f = some data := by
    rw [hothers f (fun i _ h => partPath_ne f i h.symm)]
    exact hfile
  refine ⟨w1, ?_, hfault1, hkeep, hparts, hothers, ?_, ?_, hflat, ?_⟩
  · have hmake : makeBytes maxSize avail = .ok () := by
      have h1 : ¬ (maxSize < 0 ∨ maxSize > (maxAlloc : Int)) := by omega
      have h2 : ¬ maxSize.toNat > avail := by omega
      simp [makeBytes, h1, h2]
    simp only [splitFile, osOpen, hr, hfile, Bool.false_eq_true, ↓reduceIte, hmake, hm]
    exact hw1
  · intro i hi
    have hlt : (i + 1) * m < data.length :=
      (lt_partCount data.length m (i + 1) hmpos).mp (by omega)
    have : (i + 1) * m = i * m + m := by ring
    rw [chunk_length]
    omega
  · intro hk0
    have hlt : (k - 1) * m < data.length :=
      (lt_partCount data.length m (k - 1) hmpos).mp (by omega)
    rw [chunk_length]
    omega
  · intro v hvfault hv
    obtain ⟨_, hw, _⟩ := hvfault f
    have hput : ∀ p, p ≠ f → (v.fs.put f []).files p = v.fs.files p := by
      intro p hp
      simp [FS.put, Function.update, hp]
    obtain ⟨w2, hw2, hfD, hrest⟩ := joinLoop_spec f data m hmpos k 0 fuel
      { fs := v.fs.put f [], entropy := v.entropy, log := v.log ++ [.createFile f] }
      (by omega) (by simp [FS.put])
      (fun i hi => by
        rw [hput _ (partPath_ne f i), hv i]
        exact hparts i (by omega))
      (by
        rw [hput _ (partPath_ne f _), hk, hv k,
          hothers _ (fun i hi h => absurd (partPath_inj f k i h) (by omega))]
        exact hfresh k)
      (fun p => hvfault p) (by omega)
    refine ⟨w2, ?_, by rw [hfD, hflat], hfD, fun p hp => ?_⟩
    · simp only [joinFiles, trimSuffix_part0, osCreate, hw, Bool.false_eq_true, ↓reduceIte]
      exact hw2
    · rw [hrest p hp]
      exact hput p hp

theorem split_join_roundtrip_witness :
    ∃ w1, splitFile notesTxt 4 4096 10 sampleWorld = some (.ok (), w1) ∧
      w1.fs.files (partPath notesTxt 2) = some (chunk helloWorld 4 2) ∧
      ∃ w2,
        joinFiles (partPath notesTxt 0) 10
            { fs := w1.fs.put notesTxt [0], entropy := w1.entropy, log := w1.log }
          = some (.ok (), w2) ∧
        w2.fs.files notesTxt = some helloWorld := by
  obtain ⟨w1, h1, hf, _, h2, _, _, _, _, h3⟩ := split_join_roundtrip notesTxt helloWorld 4 4096 10
    sampleWorld (by decide) (by decide) (by decide) (by decide) (fun _ => ⟨rfl, rfl, rfl⟩)
    (fun K => by simp [sampleWorld, sampleFS, partPath_ne]) (by decide)
  obtain ⟨w2, h4, _, h5, _⟩ := h3
    { fs := w1.fs.put notesTxt [0], entropy := w1.entropy, log := w1.log }
    (fun p => hf p)
    (fun K => by simp [FS.put, Function.update, partPath_ne])
  exact ⟨w1, h1, h2 2 (by decide), w2, h4, h5⟩

/-! ## Tampering with the tag -/

theorem flipBit_length (data : Bytes) (bit : Nat) : (flipBit data bit).length = data.length := by
  simp [flipBit]

theorem flipBit_ne (data : Bytes) (bit : Nat) (h : bit / 8 < data.length) :
    flipBit data bit ≠ data := by
  intro he
  have h1 : (flipBit data bit)[bit / 8]? = data[bit / 8]? := by rw [he]
  simp only [flipBit, List.getElem?_set_self h, List.getD_eq_getElem?_getD,
    List.getElem?_eq_getElem h, Option.getD_some, Option.some.injEq] at h1
  have h2 : data[bit / 8] ^^^ (data[bit / 8] ^^^ 2 ^ (bit % 8)) = data[bit / 8] ^^^ data[bit / 8] := by
    rw [h1]
  rw [Nat.xor_cancel_left, Nat.xor_self] at h2
  exact absurd h2 (by positivity)

theorem flipBit_append_right (pre data : Bytes) (bit : Nat) :
    flipBit (pre ++ data) (8 * pre.length + bit) = pre ++ flipBit data bit := by
  have h1 : (8 * pre.length + bit) / 8 = pre.length + bit / 8 := by omega
  have h2 : (8 * pre.length + bit) % 8 = bit % 8 := by omega
  have h3 : ¬ pre.length + bit / 8 < pre.length := by omega
  simp only [flipBit, h1, h2, List.set_append, h3, ↓reduceIte, Nat.add_sub_cancel_left,
    List.getD_eq_getElem?_getD, List.getElem?_append_right (Nat.le_add_right _ _)]

/-- A container whose 16-byte tag is not the tag of its ciphertext under the
key of the passphrase is rejected with the authentication error, and nothing
is written. -/
theorem tampered_tag_rejected (password : Bytes) (filePath : Str)
    (salt nonce ct tag : Bytes) (v : World)
    (hs : salt.length = 16) (hn : nonce.length = 12) (htag : tag.length = 16)
    (hct : ct.length ≤ gcmMaxPlaintext)
    (hfile : v.fs.files filePath = some (salt ++ nonce ++ (ct ++ tag)))
    (hread : v.fs.noRead filePath = false)
    (hne : (keyGCM (deriveKey password salt)).auth nonce ct [] ≠ tag) :
    decryptFile password filePath v = (.error .errOpen, openedWorld filePath v) := by
  rw [decryptFile_container password filePath salt nonce _ v hs hn hfile hread,
    open_append _ rfl rfl _ _ _ hn htag hct, if_neg hne]

/-- Flipping any one bit of the tag of the container that encryption wrote
makes decryption under the same passphrase fail with the authentication error,
with nothing written: the tag half of tamper detection. -/
theorem flipped_tag_rejected (password : Bytes) (filePath : Str)
    (plain salt nonce rest : Bytes) (w v : World) (bit : Nat)
    (hfile : w.fs.files filePath = some plain) (hread : w.fs.noRead filePath = false)
    (hs : salt.length = saltSize) (hn : nonce.length = nonceSize)
    (hent : w.entropy = salt ++ nonce ++ rest)
    (hok : (encryptFile password filePath w).1 = .ok ())
    (hbit : bit < 128)
    (hcont : ∃ out, (encryptFile password filePath w).2.fs.files (filePath ++ ".enc".toList)
        = some out ∧
      v.fs.files (filePath ++ ".enc".toList)
        = some (flipBit out (8 * (28 + plain.length) + bit)))
    (hvread : v.fs.noRead (filePath ++ ".enc".toList) = false) :
    decryptFile password (filePath ++ ".enc".toList) v
      = (.error .errOpen, openedWorld (filePath ++ ".enc".toList) v) := by
  have hs' : salt.length = 16 := hs
  have hn' : nonce.length = 12 := hn
  have hrand : 28 ≤ w.entropy.length := by simp [hent, hs', hn']; omega
  have e1 : w.entropy.take 16 = salt := by
    rw [hent, List.append_assoc, List.take_append_of_le_length (by omega), ← hs',
      List.take_length]
  have e2 : (w.entropy.drop 16).take 12 = nonce := by
    simp [hent, hs', hn', List.take_append_eq_append_take, List.drop_append_eq_append_drop]
  obtain ⟨sealed, hseal, hwritten⟩ :=
    encryptFile_written password filePath plain w hfile hread hrand hok
  rw [e1, e2] at hseal hwritten
  obtain ⟨hsealed, hsize⟩ := seal_eq _ _ _ _ hseal
  obtain ⟨out, hout, hv⟩ := hcont
  rw [hwritten] at hout
  injection hout with hout
  have hcl := counterCrypt_length (keyGCM (deriveKey password salt)) nonce plain
  have hal := auth_length (keyGCM (deriveKey password salt)) nonce
    ((keyGCM (deriveKey password salt)).counterCrypt nonce plain) []
  have hsplit : out = (salt ++ nonce ++ (keyGCM (deriveKey password salt)).counterCrypt nonce plain)
      ++ (keyGCM (deriveKey password salt)).auth nonce
        ((keyGCM (deriveKey password salt)).counterCrypt nonce plain) [] := by
    rw [← hout, hsealed]; simp
  have hpre : (salt ++ nonce ++ (keyGCM (deriveKey password salt)).counterCrypt nonce plain).length
      = 28 + plain.length := by
    simp [hs', hn', hcl]; omega
  rw [hsplit, ← hpre, flipBit_append_right, List.append_assoc] at hv
  exact tampered_tag_rejected password _ salt nonce _ _ v hs' hn'
    (by rw [flipBit_length]; exact hal) (by rw [hcl]; exact hsize) hv hvread
    (fun h => flipBit_ne _ bit (by rw [hal]; omega) h.symm)

end Tools
